import Mathlib

/-!
# Succinct bit vector, Elias-Fano and Golomb-delta codecs

A shallow embedding of `src/compression_encodings.cpp`.

Conventions of the embedding.

* A `uint64_t` is a natural number below `2 ^ 64`; value arithmetic that can
  wrap in the C++ code (`+`, `-`, `<<` on encoded values) is reduced modulo
  `2 ^ 64` explicitly (`add64`, `sub64`, `shl64`).
* A `size_t` that counts bits, words or elements of a container is a plain
  natural number: it is bounded by the memory of the machine and never wraps.
* A run that hits an `assert`, or indexes a vector outside its size, ends in
  a `Fault`; functions that can do so return `Except Fault _`.
* The floating-point expressions of the Golomb code (`ceil(sum / size)` and
  `ceil(log2(M))`) are embedded by their exact real value, computed on
  integers.  The double-precision evaluation gives that value for a sum below
  `2 ^ 53` and for `M` up to `2 ^ 49`.
* The Elias-Fano width `floor(log2(u / double(n)))` has two embeddings.
  `EliasFano.lowBitWidth` is the exact real value and `EliasFano.encode` the
  constructor with that width.  `EliasFano.doubleWidth` follows the
  double-precision evaluation on all 64-bit operands and `EliasFano.construct`
  is the constructor with that width and with `U` as a `uint64_t`.  The two
  constructors agree on values below `2 ^ 46` (`construct_eq_encode`); the
  widths differ, for instance, at `u = 2 ^ 49 - 1`, `n = 1` (49 against 48)
  and at `u = 2 ^ 64 - 1`, `n = 1` (64 against 63).
* A `while` loop is a structural recursion on a counter that bounds the
  number of iterations left.
-/

/-- How a run of the C++ code can go wrong. -/
inductive Fault where
  | assertion
  | outOfBounds
deriving DecidableEq, Repr

/-- Addition of two `uint64_t`. -/
def add64 (a b : Nat) : Nat := (a + b) % 2 ^ 64

/-- Subtraction of two `uint64_t` (wraps below zero). -/
def sub64 (a b : Nat) : Nat := (a + 2 ^ 64 - b % 2 ^ 64) % 2 ^ 64

/-- Left shift of a `uint64_t`.  For a count below 64 this is the C++ `<<`;
a count of 64 or more is undefined in C++ and is given the behaviour of the
64-bit shift instruction, which uses the count modulo 64. -/
def shl64 (x s : Nat) : Nat := (x <<< (s % 64)) % 2 ^ 64

/-- Right shift of a `uint64_t`, with the same convention as `shl64`. -/
def shr64 (x s : Nat) : Nat := x >>> (s % 64)

/-- The builtin `__builtin_popcountll`: the number of set bits among the 64
bits of a word. -/
def popcountll (w : Nat) : Nat := Nat.count (fun j => w.testBit j = true) 64

/-! ## BitVector -/

/-- The class `BitVector`: 64-bit words, the number of bits stored, and the
rank table. -/
structure BitVector where
  data : List Nat
  numBits : Nat
  rank_table : List Nat
deriving DecidableEq, Repr

namespace BitVector

/-- The constructor `BitVector() : numBits(0) {}`. -/
def empty : BitVector := ⟨[], 0, []⟩

/-- The statement `data[block] |= (1ULL << (63 - offset))` on the word list. -/
def setBit (data : List Nat) (block offset : Nat) : List Nat :=
  data.set block (data.getD block 0 ||| shl64 1 (63 - offset))

/-- `BitVector::push_back`.  The word `data[block]` exists whenever
`data.size()` is the number of words needed for `numBits` bits, which holds
for every vector grown from the empty one. -/
def push_back (bv : BitVector) (bit : Bool) : BitVector :=
  let data := if bv.numBits % 64 = 0 then bv.data ++ [0] else bv.data
  let block := bv.numBits / 64
  let offset := bv.numBits % 64
  let data := if bit then setBit data block offset else data
  { bv with data := data, numBits := bv.numBits + 1 }

/-- `BitVector::size`. -/
def size (bv : BitVector) : Nat := bv.numBits

/-- The loop of `BitVector::build_rank_metadata`: `rank_table[i] = sum`, then
`sum += popcount(data[i])`. -/
def rankLoop : List Nat → Nat → List Nat
  | [], _ => []
  | w :: ws, sum => sum :: rankLoop ws (sum + popcountll w)

/-- `BitVector::build_rank_metadata`. -/
def build_rank_metadata (bv : BitVector) : BitVector :=
  { bv with rank_table := rankLoop bv.data 0 }

/-- `BitVector::rank`. -/
def rank (bv : BitVector) (pos : Nat) : Except Fault Nat :=
  if pos ≤ bv.numBits then
    let block := pos / 64
    let offset := pos % 64
    let r := if block < bv.rank_table.length then bv.rank_table.getD block 0 else 0
    if block < bv.data.length then
      let mask := sub64 (shl64 1 (64 - offset)) 1
      .ok (r + popcountll (bv.data.getD block 0 &&& mask))
    else .ok r
  else .error .assertion

/-- The binary search of `BitVector::select`, with a counter bounding the
iterations left; it returns the final `left`. -/
def selectSearch (rt : List Nat) (i : Nat) : Nat → Nat → Nat → Nat
  | 0, left, _ => left
  | fuel + 1, left, right =>
    if left < right then
      let mid := (left + right) / 2
      let ones := if mid < rt.length then rt.getD mid 0 else 0
      if ones ≤ i then selectSearch rt i fuel (mid + 1) right
      else selectSearch rt i fuel left mid
    else left

/-- The bit scan of `BitVector::select`: `k` iterations are left, `j` is the
loop variable; when the loop ends without a hit, `assert(false)` fires. -/
def selectScan (word block : Nat) : Nat → Nat → Nat → Except Fault Nat
  | 0, _, _ => .error .assertion
  | k + 1, j, off =>
    if shr64 word (63 - j) &&& 1 = 1 then
      if off = 0 then .ok (block * 64 + j)
      else selectScan word block k (j + 1) (off - 1)
    else selectScan word block k (j + 1) off

/-- `BitVector::select`.  With an empty rank table `left - 1` wraps and
`rank_table[block]` is read outside the table. -/
def select (bv : BitVector) (i : Nat) : Except Fault Nat :=
  let left := selectSearch bv.rank_table i bv.rank_table.length 0 bv.rank_table.length
  if left = 0 then .error .outOfBounds
  else
    let block := left - 1
    match bv.rank_table[block]?, bv.data[block]? with
    | some rb, some word => selectScan word block 64 0 (sub64 i rb)
    | _, _ => .error .outOfBounds

/-- `BitVector::get`. -/
def get (bv : BitVector) (index : Nat) : Except Fault Bool :=
  if index < bv.numBits then
    let block := index / 64
    let offset := index % 64
    match bv.data[block]? with
    | some word => .ok (decide (shr64 word (63 - offset) &&& 1 = 1))
    | none => .error .outOfBounds
  else .error .assertion

/-- Appending a list of bits, one `push_back` each, in order. -/
def pushAll (bv : BitVector) (bits : List Bool) : BitVector :=
  bits.foldl push_back bv

end BitVector

/-! ## EliasFano -/

/-- The class `EliasFano`. -/
structure EliasFano where
  n : Nat
  u : Nat
  lower_bits : Nat
  lower : List Nat
  upper : BitVector
deriving DecidableEq, Repr

namespace EliasFano

/-- The choice of `lower_bits`: `floor(log2(u / double(n)))` when `n > 0` and
`u / n > 0`, else `0`.  The floor of the logarithm of the real quotient is the
greatest `k` with `2 ^ k * n ≤ u`; it is below 64 for a 64-bit `u`.  This is
the exact value; `doubleWidth` is the double-precision evaluation, which gives
the same width for `u < 2 ^ 46`. -/
def lowBitWidth (u n : Nat) : Nat :=
  if 0 < n ∧ 0 < u / n then Nat.findGreatest (fun k => 2 ^ k * n ≤ u) 64 else 0

/-- The value stored in `lower[i]`: the low bits of `x`, cast to `uint32_t`. -/
def lowPart (l x : Nat) : Nat := (x &&& sub64 (shl64 1 l) 1) % 2 ^ 32

/-- The part of the constructor loop that writes the upper bit vector: for the
value `x` at index `i`, the bit at `(x >> lower_bits) + i` is set.  A write
outside `upper.data` is a fault. -/
def setUpper (l : Nat) : List Nat → Nat → List Nat → Except Fault (List Nat)
  | [], _, data => .ok data
  | x :: xs, i, data =>
    let high := shr64 x l
    let pos := high + i
    let block := pos / 64
    let offset := pos % 64
    if block < data.length then setUpper l xs (i + 1) (BitVector.setBit data block offset)
    else .error .outOfBounds

/-- The constructor `EliasFano::EliasFano`, with the exact width `lowBitWidth`
and `U` as a natural number; `construct` is the constructor with the
double-precision width and the 64-bit `U`. -/
def encode (values : List Nat) : Except Fault EliasFano :=
  let n := values.length
  if n = 0 then .ok ⟨0, 0, 0, [], BitVector.empty⟩
  else
    let u := values.getLast?.getD 0
    let l := lowBitWidth u n
    let lower := values.map (lowPart l)
    let U := shr64 u l + n
    match setUpper l values 0 (List.replicate ((U + 63) / 64) 0) with
    | .ok data =>
      .ok ⟨n, u, l, lower, (BitVector.mk data U []).build_rank_metadata⟩
    | .error e => .error e

/-- The body shared by `decode` and `access`: element `i` of the sequence. -/
def element (ef : EliasFano) (i : Nat) : Except Fault Nat :=
  match ef.upper.select i with
  | .ok pos =>
    let high := sub64 pos i
    match ef.lower[i]? with
    | some lo => .ok (shl64 high ef.lower_bits ||| lo)
    | none => .error .outOfBounds
  | .error e => .error e

/-- The loop of `EliasFano::decode`: `k` iterations are left, starting at
index `i`. -/
def decodeLoop (ef : EliasFano) : Nat → Nat → Except Fault (List Nat)
  | 0, _ => .ok []
  | k + 1, i =>
    match element ef i with
    | .ok v =>
      match decodeLoop ef k (i + 1) with
      | .ok rest => .ok (v :: rest)
      | .error e => .error e
    | .error e => .error e

/-- `EliasFano::decode`. -/
def decode (ef : EliasFano) : Except Fault (List Nat) := decodeLoop ef ef.n 0

/-- `EliasFano::access`. -/
def access (ef : EliasFano) (i : Nat) : Except Fault Nat :=
  if i < ef.n then element ef i else .error .assertion

/-- `EliasFano::size_in_bits`. -/
def size_in_bits (ef : EliasFano) : Nat := ef.n * ef.lower_bits + ef.upper.size

/-- The conversion of a `uint64_t` to `double` (`double(n)`, and `u` promoted
in `u / double(n)`): the value rounded to 53 significant bits, to nearest, ties
to even.  The result is again an integer. -/
def toDouble (u : Nat) : Nat :=
  if u < 2 ^ 53 then u
  else
    let e := Nat.findGreatest (fun k => 2 ^ k ≤ u) 64 - 52
    let q := u / 2 ^ e
    let r := u % 2 ^ e
    if 2 ^ (e - 1) < r ∨ (r = 2 ^ (e - 1) ∧ q % 2 = 1) then (q + 1) * 2 ^ e else q * 2 ^ e

/-- How far below `2 ^ k` a double may lie, in units of `2 ^ (k - 53)`, for
`std::log2` to return exactly `k`: the logarithm of `2 ^ k * (1 - j / 2 ^ 53)`
is nearer to `k` than to the double before `k` for `j` up to this bound. -/
def log2Slack (k : Nat) : Nat :=
  if k ≤ 2 then 0 else if k ≤ 4 then 1 else if k ≤ 8 then 2 else if k ≤ 16 then 5
  else if k ≤ 32 then 11 else if k ≤ 64 then 22 else 44

/-- The expression `floor(log2(a / b))` on two doubles `a ≥ b ≥ 1` with integer
values: the quotient is rounded to 53 bits (`E` is its exponent and `m` its
significand, rounded to nearest, ties to even), and the logarithm of a
quotient just below `2 ^ (E + 1)` rounds to `E + 1`. -/
def quotientLog2 (a b : Nat) : Nat :=
  let E := Nat.findGreatest (fun k => 2 ^ k * b ≤ a) 64
  let num := a * 2 ^ 52
  let den := b * 2 ^ E
  let m0 := num / den
  let rem := num % den
  let m := if den < 2 * rem ∨ (2 * rem = den ∧ m0 % 2 = 1) then m0 + 1 else m0
  if m = 2 ^ 53 ∨ 2 ^ 53 - m ≤ log2Slack (E + 1) then E + 1 else E

/-- The value of `lower_bits` as the source computes it, in double precision:
`floor(log2(u / double(n)))` when `n > 0` and `u / n > 0`, else `0`. -/
def doubleWidth (u n : Nat) : Nat :=
  if 0 < n ∧ 0 < u / n then quotientLog2 (toDouble u) (toDouble n) else 0

/-- The constructor `EliasFano::EliasFano` with `lower_bits` evaluated in
double precision (`doubleWidth`) and `U` computed as a `uint64_t`.  `encode` is
the same constructor with the exact integer width and an unbounded `U`. -/
def construct (values : List Nat) : Except Fault EliasFano :=
  let n := values.length
  if n = 0 then .ok ⟨0, 0, 0, [], BitVector.empty⟩
  else
    let u := values.getLast?.getD 0
    let l := doubleWidth u n
    let lower := values.map (lowPart l)
    let U := add64 (shr64 u l) n
    match setUpper l values 0 (List.replicate (add64 U 63 / 64) 0) with
    | .ok data =>
      .ok ⟨n, u, l, lower, (BitVector.mk data U []).build_rank_metadata⟩
    | .error e => .error e

end EliasFano

/-! ## GolombDelta -/

/-- The class `GolombDelta`. -/
structure GolombDelta where
  M : Nat
  encoded : BitVector
deriving DecidableEq, Repr

namespace GolombDelta

/-- `GolombDelta::compute_M`: `max(1, ceil(sum / size))`, and `1` for no
gaps; the sum is a `uint64_t`.  The quotient is taken exactly, as the
double-precision evaluation does for a sum below `2 ^ 53`. -/
def compute_M (gaps : List Nat) : Nat :=
  let sum := gaps.foldl add64 0
  if gaps.isEmpty then 1 else max 1 ((sum + gaps.length - 1) / gaps.length)

/-- The expression `M > 1 ? ceil(log2(M)) : 1`.  For `M > 1` the ceiling of
the logarithm is one more than the greatest `k` with `2 ^ k < M`; the
double-precision evaluation gives this value for `M` up to `2 ^ 49`. -/
def bitsFor (M : Nat) : Nat :=
  if 1 < M then Nat.findGreatest (fun k => 2 ^ k < M) 64 + 1 else 1

/-- The expression `(1ULL << b) - M`. -/
def thresholdFor (M : Nat) : Nat := sub64 (shl64 1 (bitsFor M)) M

/-- The gaps after the first: `values[i] - values[i - 1]`. -/
def gapsFrom : Nat → List Nat → List Nat
  | _, [] => []
  | prev, x :: xs => sub64 x prev :: gapsFrom x xs

/-- The gap vector of the constructor: `values[0] + 1`, then the
differences. -/
def gapsOf : List Nat → List Nat
  | [] => []
  | v :: vs => add64 v 1 :: gapsFrom v vs

/-- The unary loop `for (i = 0; i < q; ++i) encoded.push_back(false)`. -/
def pushZeros (bv : BitVector) : Nat → BitVector
  | 0 => bv
  | q + 1 => pushZeros (bv.push_back false) q

/-- The loop `for (int i = k - 1; i >= 0; --i) encoded.push_back((r >> i) & 1)`. -/
def pushBits (r : Nat) : Nat → BitVector → BitVector
  | 0, bv => bv
  | k + 1, bv => pushBits r k (bv.push_back (decide (shr64 r k &&& 1 = 1)))

/-- The body of the encoding loop, for one gap. -/
def encodeGap (M : Nat) (bv : BitVector) (gap : Nat) : BitVector :=
  let b := bitsFor M
  let threshold := thresholdFor M
  let q := gap / M
  let r := gap % M
  let bv := (pushZeros bv q).push_back true
  if r < threshold then pushBits r (b - 1) bv
  else pushBits (add64 r threshold) b bv

/-- The constructor `GolombDelta::GolombDelta`. -/
def encode (values : List Nat) : GolombDelta :=
  if values.isEmpty then ⟨1, BitVector.empty⟩
  else
    let gaps := gapsOf values
    let M := compute_M gaps
    ⟨M, gaps.foldl (encodeGap M) BitVector.empty⟩

/-- The loop `while (pos < encoded.size() && !encoded.get(pos)) { ++q; ++pos; }`
with a counter bounding the iterations left; it returns `(pos, q)`. -/
def skipZeros (bv : BitVector) : Nat → Nat → Nat → Except Fault (Nat × Nat)
  | 0, pos, q => .ok (pos, q)
  | fuel + 1, pos, q =>
    if pos < bv.size then
      match bv.get pos with
      | .ok bit => if !bit then skipZeros bv fuel (pos + 1) (q + 1) else .ok (pos, q)
      | .error e => .error e
    else .ok (pos, q)

/-- The loop `for (i = 0; i < k; ++i) r = (r << 1) | (encoded.get(pos + i) ? 1 : 0)`;
`k` iterations are left and `i` is the loop variable. -/
def readBits (bv : BitVector) (pos : Nat) : Nat → Nat → Nat → Except Fault Nat
  | 0, _, r => .ok r
  | k + 1, i, r =>
    match bv.get (pos + i) with
    | .ok bit => readBits bv pos k (i + 1) (shl64 r 1 ||| (if bit then 1 else 0))
    | .error e => .error e

/-- The long remainder: the part of the loop body after `r = 0;`, which reads
`b` bits when they are there.  It returns the gap and the new position. -/
def readLong (gd : GolombDelta) (pos q : Nat) : Except Fault (Nat × Nat) :=
  let b := bitsFor gd.M
  let threshold := thresholdFor gd.M
  if pos + b ≤ gd.encoded.size then
    match readBits gd.encoded pos b 0 0 with
    | .ok r => .ok ((q * gd.M + sub64 r threshold) % 2 ^ 64, pos + b)
    | .error e => .error e
  else .ok ((q * gd.M) % 2 ^ 64, pos)

/-- The remainder part of the loop body: the tentative read of `b - 1` bits,
accepted when the result is below the threshold, and the long read otherwise.
It returns the gap and the new position. -/
def readRemainder (gd : GolombDelta) (pos q : Nat) : Except Fault (Nat × Nat) :=
  let b := bitsFor gd.M
  let threshold := thresholdFor gd.M
  if 0 < b - 1 ∧ pos + (b - 1) ≤ gd.encoded.size then
    match readBits gd.encoded pos (b - 1) 0 0 with
    | .ok r =>
      if r < threshold then .ok ((q * gd.M + r) % 2 ^ 64, pos + (b - 1))
      else readLong gd pos q
    | .error e => .error e
  else readLong gd pos q

/-- One iteration of the decoding loop shared by `decode` and `access`: the
unary quotient, the skip of the terminating one, then the remainder.  From the
position `pos` it returns the gap and the new position. -/
def decodeGap (gd : GolombDelta) (pos : Nat) : Except Fault (Nat × Nat) :=
  match skipZeros gd.encoded (gd.encoded.size - pos) pos 0 with
  | .ok (pos, q) => readRemainder gd (if pos < gd.encoded.size then pos + 1 else pos) q
  | .error e => .error e

/-- The loop `while (pos < encoded.size() && gaps.size() < numValues)` of
`decode`; every iteration appends one gap, so `k = numValues - gaps.size()`
bounds the iterations left. -/
def decodeGaps (gd : GolombDelta) : Nat → Nat → Except Fault (List Nat)
  | 0, _ => .ok []
  | k + 1, pos =>
    if pos < gd.encoded.size then
      match decodeGap gd pos with
      | .ok (gap, pos) =>
        match decodeGaps gd k pos with
        | .ok rest => .ok (gap :: rest)
        | .error e => .error e
      | .error e => .error e
    else .ok []

/-- The reconstruction loop of `decode` after the first gap: `last += gaps[i]`. -/
def sumsFrom : Nat → List Nat → List Nat
  | _, [] => []
  | last, g :: gs => add64 last g :: sumsFrom (add64 last g) gs

/-- The reconstruction loop of `decode`: the first value is `gaps[0] - 1`. -/
def valuesOf : List Nat → List Nat
  | [] => []
  | g :: gs => sub64 g 1 :: sumsFrom (sub64 g 1) gs

/-- `GolombDelta::decode`. -/
def decode (gd : GolombDelta) (numValues : Nat) : Except Fault (List Nat) :=
  match decodeGaps gd numValues 0 with
  | .ok gaps => .ok (valuesOf gaps)
  | .error e => .error e

/-- The loop `while (pos < encoded.size() && count <= index)` of `access`;
every iteration increments `count`, so `k = index + 1 - count` bounds the
iterations left. -/
def accessLoop (gd : GolombDelta) : Nat → Nat → Nat → Nat → Except Fault Nat
  | 0, _, _, value => .ok value
  | k + 1, pos, count, value =>
    if pos < gd.encoded.size then
      match decodeGap gd pos with
      | .ok (gap, pos) =>
        accessLoop gd k pos (count + 1) (if count = 0 then sub64 gap 1 else add64 value gap)
      | .error e => .error e
    else .ok value

/-- `GolombDelta::access`. -/
def access (gd : GolombDelta) (index : Nat) : Except Fault Nat :=
  accessLoop gd (index + 1) 0 0 0

/-- `GolombDelta::size_in_bits`. -/
def size_in_bits (gd : GolombDelta) : Nat := gd.encoded.size

end GolombDelta

/-! ## Definitions used to state and prove the properties -/

open GolombDelta

/-- Bit `j` of a 64-bit word, counted from the most significant bit. -/
def wordBit (w j : Nat) : Bool := w.testBit (63 - j)

/-- The bit at position `p` of a list of 64-bit words. -/
def bitOf (data : List Nat) (p : Nat) : Bool := wordBit (data.getD (p / 64) 0) (p % 64)

/-- The number of set bits of a word list before position `p`. -/
def onesBefore (data : List Nat) (p : Nat) : Nat := Nat.count (fun q => bitOf data q = true) p

/-- The words and the bit count of `bv` hold exactly the bits `bs`. -/
def Holds (bv : BitVector) (bs : List Bool) : Prop :=
  bv.numBits = bs.length ∧ bv.data.length = (bs.length + 63) / 64 ∧
    ∀ p, bitOf bv.data p = bs.getD p false

namespace BitVector

/-- A call made on a bit vector while it is being built. -/
inductive Call where
  | push (bit : Bool)
  | build
deriving DecidableEq, Repr

/-- The effect of one call. -/
def step (bv : BitVector) : Call → BitVector
  | .push bit => bv.push_back bit
  | .build => bv.build_rank_metadata

/-- The vector reached from the empty one by a sequence of calls. -/
def runCalls (calls : List Call) : BitVector := calls.foldl step empty

/-- The bits a sequence of calls appends, in order. -/
def pushedBits : List Call → List Bool
  | [] => []
  | .push bit :: cs => bit :: pushedBits cs
  | .build :: cs => pushedBits cs

end BitVector

namespace EliasFano

/-- Whether position `p` is one of the positions the constructor loop sets for
the values `xs`, the first of which has index `i`. -/
def hits (l : Nat) : List Nat → Nat → Nat → Bool
  | [], _, _ => false
  | x :: xs, i, p => decide (p = shr64 x l + i) || hits l xs (i + 1) p

/-- The value `decode` and `access` rebuild for the input value `x` when the
upper bit vector gives back its high part. -/
def rebuilt (l x : Nat) : Nat := shl64 (shr64 x l % 2 ^ 64) l ||| lowPart l x

/-- The composition `EliasFano(values).decode()`. -/
def roundTrip (values : List Nat) : Except Fault (List Nat) :=
  match encode values with
  | .ok ef => ef.decode
  | .error e => .error e

end EliasFano

namespace GolombDelta

/-- The bits `pushBits r k` appends: bit `k - 1` of `r` first, bit `0` last. -/
def bitsMSB (r : Nat) : Nat → List Bool
  | 0 => []
  | k + 1 => decide (shr64 r k &&& 1 = 1) :: bitsMSB r k

/-- The code of one gap: the quotient in unary, then the remainder in
truncated binary. -/
def codeOf (M g : Nat) : List Bool :=
  List.replicate (g / M) false ++
    true :: (if g % M < thresholdFor M then bitsMSB (g % M) (bitsFor M - 1)
      else bitsMSB (add64 (g % M) (thresholdFor M)) (bitsFor M))

/-- The bit stream of a list of gaps. -/
def streamOf (M : Nat) : List Nat → List Bool
  | [] => []
  | g :: gs => codeOf M g ++ streamOf M gs

/-- The number `readBits` accumulates from a list of bits, starting from `r`. -/
def valOf (bits : List Bool) (r : Nat) : Nat :=
  bits.foldl (fun r bit => shl64 r 1 ||| (if bit then 1 else 0)) r

/-- The remainder bits the encoder writes for the remainder `r`. -/
def remBits (M r : Nat) : List Bool :=
  if r < thresholdFor M then bitsMSB r (bitsFor M - 1)
  else bitsMSB (add64 r (thresholdFor M)) (bitsFor M)

/-- The differences `value[i] - value[i - 1]` as the specification words them,
in exact arithmetic (the input is non-decreasing). -/
def specDiffs : Nat → List Nat → List Nat
  | _, [] => []
  | prev, x :: xs => (x - prev) :: specDiffs x xs

/-- The gaps as the specification words them: `gaps[0] = value[0] + 1` and
`gaps[i] = value[i] - value[i - 1]`, in exact arithmetic. -/
def specGaps : List Nat → List Nat
  | [] => []
  | v :: vs => (v + 1) :: specDiffs v vs

/-- The Golomb modulus as the specification words it:
`max(1, ceil(mean(gaps)))`, the mean taken over the rationals. -/
def specM (values : List Nat) : Nat :=
  max 1 ⌈((specGaps values).sum : ℚ) / ((specGaps values).length : ℚ)⌉₊

end GolombDelta

/-- The facts about the Golomb parameter that the codec relies on: the bit
count `b` is the ceiling of the logarithm of `M` and fits a shift, and the
threshold is `2 ^ b - M`. -/
structure GoodM (M : Nat) : Prop where
  two_le : 2 ≤ M
  b_pos : 1 ≤ bitsFor M
  b_lt : bitsFor M < 64
  lower : 2 ^ (bitsFor M - 1) < M
  upper : M ≤ 2 ^ bitsFor M
  thr : thresholdFor M = 2 ^ bitsFor M - M

/-! ## Lemmas -/

theorem shr_and_one (w k : Nat) : (w >>> k &&& 1 = 1) ↔ w.testBit k = true := by
  simp [Nat.testBit_to_div_mod, Nat.and_one_is_mod, Nat.shiftRight_eq_div_pow]

theorem shr64_and_one (w j : Nat) (hj : j < 64) :
    (shr64 w (63 - j) &&& 1 = 1) ↔ wordBit w j = true := by
  unfold shr64 wordBit
  rw [Nat.mod_eq_of_lt (by omega)]
  exact shr_and_one _ _

theorem shl64_one (j : Nat) (hj : j < 64) : shl64 1 (63 - j) = 2 ^ (63 - j) := by
  unfold shl64
  rw [Nat.mod_eq_of_lt (show (63 - j) < 64 by omega), Nat.one_shiftLeft]
  exact Nat.mod_eq_of_lt (Nat.pow_lt_pow_right (by norm_num) (by omega))

theorem count_congr_lt {P Q : Nat → Prop} [DecidablePred P] [DecidablePred Q] (n : Nat)
    (h : ∀ k, k < n → (P k ↔ Q k)) : Nat.count P n = Nat.count Q n := by
  induction n with
  | zero => simp
  | succ n ih =>
    rw [Nat.count_succ, Nat.count_succ, ih (fun k hk => h k (by omega))]
    simp only [h n (by omega)]

theorem count_reflect (P : Nat → Prop) [DecidablePred P] (n : Nat) :
    Nat.count (fun j => P (n - 1 - j)) n = Nat.count P n := by
  rw [Nat.count_eq_card_filter_range, Nat.count_eq_card_filter_range,
    Finset.card_filter, Finset.card_filter]
  exact Finset.sum_range_reflect (fun j => if P j then 1 else 0) n

theorem popcountll_eq (w : Nat) :
    popcountll w = Nat.count (fun j => wordBit w j = true) 64 := by
  unfold popcountll wordBit
  exact (count_reflect (fun j => w.testBit j = true) 64).symm

theorem bitOf_block (data : List Nat) (b t : Nat) (ht : t < 64) :
    bitOf data (64 * b + t) = wordBit (data.getD b 0) t := by
  unfold bitOf
  have h1 : (64 * b + t) / 64 = b := by omega
  have h2 : (64 * b + t) % 64 = t := by omega
  rw [h1, h2]

theorem onesBefore_block (data : List Nat) (b t : Nat) (ht : t ≤ 64) :
    onesBefore data (64 * b + t) =
      onesBefore data (64 * b) + Nat.count (fun j => wordBit (data.getD b 0) j = true) t := by
  unfold onesBefore
  rw [Nat.count_add]
  congr 1
  apply count_congr_lt
  intro k hk
  rw [bitOf_block data b k (by omega)]

theorem onesBefore_succ_block (data : List Nat) (b : Nat) :
    onesBefore data (64 * (b + 1)) = onesBefore data (64 * b) + popcountll (data.getD b 0) := by
  rw [popcountll_eq, ← onesBefore_block data b 64 (le_refl _)]
  congr 1

theorem bitOf_cons (w : Nat) (ws : List Nat) (p : Nat) :
    bitOf (w :: ws) (64 + p) = bitOf ws p := by
  unfold bitOf
  have h1 : (64 + p) / 64 = p / 64 + 1 := by omega
  have h2 : (64 + p) % 64 = p % 64 := by omega
  rw [h1, h2]
  simp

theorem onesBefore_cons (w : Nat) (ws : List Nat) (k : Nat) :
    onesBefore (w :: ws) (64 * (k + 1)) = popcountll w + onesBefore ws (64 * k) := by
  have h : 64 * (k + 1) = 64 + 64 * k := by ring
  unfold onesBefore
  rw [h, Nat.count_add]
  congr 1
  · have := onesBefore_succ_block (w :: ws) 0
    simp [onesBefore] at this
    exact this
  · apply count_congr_lt
    intro q _
    rw [bitOf_cons]

theorem rankLoop_length (data : List Nat) (s : Nat) :
    (BitVector.rankLoop data s).length = data.length := by
  induction data generalizing s with
  | nil => rfl
  | cons w ws ih => simp [BitVector.rankLoop, ih]

theorem rankLoop_getD (data : List Nat) (s k : Nat) (hk : k < data.length) :
    (BitVector.rankLoop data s).getD k 0 = s + onesBefore data (64 * k) := by
  induction data generalizing s k with
  | nil => simp at hk
  | cons w ws ih =>
    cases k with
    | zero => simp [BitVector.rankLoop, onesBefore]
    | succ k =>
      simp only [BitVector.rankLoop, List.getD_cons_succ]
      rw [ih _ _ (by simpa using hk), onesBefore_cons]
      omega

theorem sub64_of_le (a b : Nat) (h : b ≤ a) : sub64 a b = (a - b) % 2 ^ 64 := by
  unfold sub64
  omega

theorem selectSearch_eq (rt : List Nat) (i B : Nat)
    (hrt : ∀ k, k < rt.length → (rt.getD k 0 ≤ i ↔ k < B)) :
    ∀ fuel left right, left ≤ B → B ≤ right → right ≤ rt.length → right - left ≤ fuel →
      BitVector.selectSearch rt i fuel left right = B := by
  intro fuel
  induction fuel with
  | zero =>
    intro left right h1 h2 _ h4
    simp only [BitVector.selectSearch]
    omega
  | succ fuel ih =>
    intro left right h1 h2 h3 h4
    simp only [BitVector.selectSearch]
    split
    · rename_i hlt
      have hmid : (left + right) / 2 < rt.length := by omega
      simp only [hmid, if_true]
      split
      · rename_i hle
        have := (hrt _ hmid).mp hle
        exact ih _ _ (by omega) h2 h3 (by omega)
      · rename_i hle
        have : ¬ (left + right) / 2 < B := fun h => hle ((hrt _ hmid).mpr h)
        exact ih _ _ h1 (by omega) (by omega) (by omega)
    · omega

theorem selectScan_eq (word block t : Nat) (ht : t < 64) (hbit : wordBit word t = true) :
    ∀ k j off, j + k = 64 → j ≤ t →
      off = Nat.count (fun q => wordBit word (j + q) = true) (t - j) →
      BitVector.selectScan word block k j off = .ok (block * 64 + t) := by
  intro k
  induction k with
  | zero => intro j off h1 h2 _; omega
  | succ k ih =>
    intro j off h1 h2 h3
    have hj : j < 64 := by omega
    simp only [BitVector.selectScan, shr64_and_one word j hj]
    rcases Nat.eq_or_lt_of_le h2 with heq | hlt
    · subst heq
      simp only [Nat.sub_self, Nat.count_zero] at h3
      simp [hbit, h3]
    · have hsplit : t - j = (t - (j + 1)) + 1 := by omega
      rw [hsplit, Nat.count_succ'] at h3
      have hshift : Nat.count (fun q => wordBit word (j + (q + 1)) = true) (t - (j + 1)) =
          Nat.count (fun q => wordBit word (j + 1 + q) = true) (t - (j + 1)) := by
        apply count_congr_lt
        intro q _
        rw [show j + (q + 1) = j + 1 + q by omega]
      rw [hshift] at h3
      simp only [Nat.add_zero] at h3
      cases hb : wordBit word j with
      | true =>
        simp only [hb, if_true] at h3
        have hne : off ≠ 0 := by omega
        simp only [hne, if_false, if_true]
        exact ih (j + 1) (off - 1) (by omega) (by omega) (by omega)
      | false =>
        simp only [hb, Bool.false_eq_true, if_false] at h3
        simp only [Bool.false_eq_true, if_false]
        exact ih (j + 1) off (by omega) (by omega) (by omega)

theorem onesBefore_mono (data : List Nat) {a b : Nat} (h : a ≤ b) :
    onesBefore data a ≤ onesBefore data b :=
  Nat.count_monotone _ h

theorem onesBefore_lt (data : List Nat) {p q : Nat} (hp : bitOf data p = true) (h : p < q) :
    onesBefore data p < onesBefore data q :=
  Nat.count_strict_mono (p := fun q => bitOf data q = true) hp h

/-- Select on a vector whose rank table was built from its words: for a set
bit at position `p`, selecting the number of set bits before `p` gives `p`. -/
theorem select_onesBefore (bv : BitVector) (hrt : bv.rank_table = BitVector.rankLoop bv.data 0)
    (p : Nat) (hp : p / 64 < bv.data.length) (hbit : bitOf bv.data p = true) :
    bv.select (onesBefore bv.data p) = .ok p := by
  have hlen : bv.rank_table.length = bv.data.length := by rw [hrt, rankLoop_length]
  have hget : ∀ k, k < bv.data.length →
      bv.rank_table.getD k 0 = onesBefore bv.data (64 * k) := by
    intro k hk
    rw [hrt, rankLoop_getD _ _ _ hk, Nat.zero_add]
  have hsearch : BitVector.selectSearch bv.rank_table (onesBefore bv.data p)
      bv.rank_table.length 0 bv.rank_table.length = p / 64 + 1 := by
    apply selectSearch_eq _ _ _ _ _ _ _ (by omega) (by omega) (le_refl _) (by omega)
    intro k hk
    rw [hget k (by omega)]
    constructor
    · intro hle
      by_contra hcon
      have : p < 64 * k := by omega
      have := onesBefore_lt bv.data hbit this
      omega
    · intro hk2
      exact onesBefore_mono _ (by omega)
  unfold BitVector.select
  simp only [hsearch, Nat.add_sub_cancel]
  have h1 : bv.rank_table[p / 64]? = some (onesBefore bv.data (64 * (p / 64))) := by
    have := hget _ hp
    rw [List.getD_eq_getElem?_getD, List.getElem?_eq_getElem (by omega)] at this
    rw [List.getElem?_eq_getElem (by omega)]
    simpa using this
  have h2 : bv.data[p / 64]? = some (bv.data.getD (p / 64) 0) := by
    rw [List.getD_eq_getElem?_getD, List.getElem?_eq_getElem hp]
    simp
  simp only [h1, h2]
  have hpos : p = 64 * (p / 64) + p % 64 := by omega
  have hcount := onesBefore_block bv.data (p / 64) (p % 64) (by omega)
  rw [← hpos] at hcount
  have hle : onesBefore bv.data (64 * (p / 64)) ≤ onesBefore bv.data p := by omega
  have hcw : Nat.count (fun j => wordBit (bv.data.getD (p / 64) 0) j = true) (p % 64) ≤ p % 64 :=
    Nat.count_le _
  rw [sub64_of_le _ _ hle, Nat.mod_eq_of_lt (by omega)]
  have hres := selectScan_eq (bv.data.getD (p / 64) 0) (p / 64) (p % 64) (by omega) hbit
    64 0 (onesBefore bv.data p - onesBefore bv.data (64 * (p / 64))) (by omega) (by omega)
    (by simp only [Nat.zero_add, Nat.sub_zero]; omega)
  rw [hres, if_neg (Nat.succ_ne_zero _)]
  congr 1
  omega

theorem getD_set_eq (l : List Nat) (i j a : Nat) (hi : i < l.length) :
    (l.set i a).getD j 0 = if i = j then a else l.getD j 0 := by
  simp only [List.getD_eq_getElem?_getD, List.getElem?_set]
  by_cases h : i = j
  · subst h
    simp [hi]
  · simp [h]

theorem wordBit_or_pow (w o t : Nat) (ho : o < 64) (ht : t < 64) :
    wordBit (w ||| 2 ^ (63 - o)) t = (wordBit w t || decide (t = o)) := by
  unfold wordBit
  rw [Nat.testBit_or, Nat.testBit_two_pow]
  congr 1
  apply decide_eq_decide.mpr
  omega

theorem bitOf_setBit (data : List Nat) (b o p : Nat) (hb : b < data.length) (ho : o < 64) :
    bitOf (BitVector.setBit data b o) p = (bitOf data p || decide (p = 64 * b + o)) := by
  unfold bitOf BitVector.setBit
  rw [getD_set_eq _ _ _ _ hb, shl64_one o ho]
  by_cases h : b = p / 64
  · rw [if_pos h, wordBit_or_pow _ _ _ ho (Nat.mod_lt _ (by norm_num)), ← h]
    congr 1
    apply decide_eq_decide.mpr
    omega
  · rw [if_neg h]
    have : ¬ p = 64 * b + o := by omega
    simp [this]

theorem setBit_length (data : List Nat) (b o : Nat) :
    (BitVector.setBit data b o).length = data.length := by
  simp [BitVector.setBit]

theorem wordBit_zero (t : Nat) : wordBit 0 t = false := by
  simp [wordBit]

theorem bitOf_append_zero (data : List Nat) (p : Nat) :
    bitOf (data ++ [0]) p = bitOf data p := by
  unfold bitOf
  by_cases h : p / 64 < data.length
  · rw [List.getD_append _ _ _ _ h]
  · rw [List.getD_append_right _ _ _ _ (by omega)]
    have h1 : data.getD (p / 64) 0 = 0 := by
      rw [List.getD_eq_getElem?_getD, List.getElem?_eq_none (by omega)]
      rfl
    have h2 : [0].getD (p / 64 - data.length) 0 = 0 := by
      cases (p / 64 - data.length) with
      | zero => rfl
      | succ m => simp
    rw [h1, h2]

theorem holds_empty : Holds BitVector.empty [] := by
  refine ⟨rfl, rfl, ?_⟩
  intro p
  simp [BitVector.empty, bitOf, wordBit_zero]

theorem getD_append_singleton (bs : List Bool) (b : Bool) (p : Nat) :
    (bs ++ [b]).getD p false = (bs.getD p false || (b && decide (p = bs.length))) := by
  by_cases h : p < bs.length
  · rw [List.getD_append _ _ _ _ h]
    have : ¬ p = bs.length := by omega
    simp [this]
  · rw [List.getD_append_right _ _ _ _ (by omega)]
    have h1 : bs.getD p false = false := by
      rw [List.getD_eq_getElem?_getD, List.getElem?_eq_none (by omega)]
      rfl
    rw [h1]
    by_cases h2 : p = bs.length
    · subst h2
      simp
    · have : p - bs.length = (p - bs.length - 1) + 1 := by omega
      rw [this]
      simp [h2]

theorem holds_push_back (bv : BitVector) (bs : List Bool) (b : Bool) (h : Holds bv bs) :
    Holds (bv.push_back b) (bs ++ [b]) := by
  obtain ⟨h1, h2, h3⟩ := h
  have hlen : (if bv.numBits % 64 = 0 then bv.data ++ [0] else bv.data).length =
      (bs.length + 1 + 63) / 64 := by
    split
    · rw [List.length_append, h2]; simp only [List.length_singleton]; omega
    · rw [h2]; omega
  have hbit : ∀ p, bitOf (if bv.numBits % 64 = 0 then bv.data ++ [0] else bv.data) p =
      bs.getD p false := by
    intro p
    split
    · rw [bitOf_append_zero, h3]
    · exact h3 p
  refine ⟨?_, ?_, ?_⟩
  · simp [BitVector.push_back, h1]
  · simp only [BitVector.push_back, List.length_append, List.length_singleton]
    split
    · rw [setBit_length, hlen]
    · exact hlen
  · intro p
    simp only [BitVector.push_back]
    rw [getD_append_singleton]
    cases b with
    | false => simp [hbit p]
    | true =>
      simp only [if_true, Bool.true_and]
      rw [bitOf_setBit _ _ _ _ (by rw [hlen]; omega) (Nat.mod_lt _ (by norm_num)), hbit p]
      congr 1
      apply decide_eq_decide.mpr
      omega

theorem holds_pushAll (bv : BitVector) (bs cs : List Bool) (h : Holds bv bs) :
    Holds (bv.pushAll cs) (bs ++ cs) := by
  induction cs generalizing bv bs with
  | nil => simpa [BitVector.pushAll] using h
  | cons c cs ih =>
    have := ih (bv.push_back c) (bs ++ [c]) (holds_push_back bv bs c h)
    simpa [BitVector.pushAll] using this

theorem holds_pushAll_empty (bs : List Bool) : Holds (BitVector.empty.pushAll bs) bs := by
  simpa using holds_pushAll BitVector.empty [] bs holds_empty

theorem holds_build (bv : BitVector) (bs : List Bool) (h : Holds bv bs) :
    Holds bv.build_rank_metadata bs := h

theorem get_of_holds (bv : BitVector) (bs : List Bool) (h : Holds bv bs) (p : Nat)
    (hp : p < bs.length) : bv.get p = .ok (bs.getD p false) := by
  obtain ⟨h1, h2, h3⟩ := h
  unfold BitVector.get
  have hb : p / 64 < bv.data.length := by omega
  rw [if_pos (by omega)]
  simp only [List.getElem?_eq_getElem hb]
  congr 1
  rw [← h3 p]
  unfold bitOf
  rw [List.getD_eq_getElem?_getD, List.getElem?_eq_getElem hb]
  simp only [Option.getD_some]
  have := shr64_and_one bv.data[p / 64] (p % 64) (Nat.mod_lt _ (by norm_num))
  by_cases hw : wordBit bv.data[p / 64] (p % 64) = true
  · rw [hw]; exact decide_eq_true (this.mpr hw)
  · rw [Bool.not_eq_true] at hw
    rw [hw]
    apply decide_eq_false
    intro hc
    rw [this.mp hc] at hw
    exact Bool.noConfusion hw

theorem count_getD_eq (bs : List Bool) (p : Nat) :
    Nat.count (fun q => bs.getD q false = true) p = (bs.take p).count true := by
  induction p with
  | zero => simp
  | succ p ih =>
    rw [Nat.count_succ, ih]
    by_cases hp : p < bs.length
    · rw [List.take_succ, List.count_append]
      rw [List.getD_eq_getElem?_getD, List.getElem?_eq_getElem hp]
      cases hb : bs[p] <;> simp
    · have h1 : bs.getD p false = false := by
        rw [List.getD_eq_getElem?_getD, List.getElem?_eq_none (by omega)]
        rfl
      rw [h1, List.take_of_length_le (by omega), List.take_of_length_le (by omega)]
      simp

theorem onesBefore_of_holds (bv : BitVector) (bs : List Bool) (h : Holds bv bs) (p : Nat) :
    onesBefore bv.data p = (bs.take p).count true := by
  unfold onesBefore
  rw [← count_getD_eq]
  apply count_congr_lt
  intro k _
  rw [h.2.2 k]

theorem count_false_eq (n : Nat) : Nat.count (fun _ => False) n = 0 := by
  induction n with
  | zero => simp
  | succ n ih => rw [Nat.count_succ, ih]; simp

theorem count_point (a n : Nat) : Nat.count (fun q => q = a) n = if a < n then 1 else 0 := by
  induction n with
  | zero => simp
  | succ n ih =>
    rw [Nat.count_succ, ih]
    by_cases h1 : a < n
    · have : ¬ n = a := by omega
      simp [h1, this, show a < n + 1 by omega]
    · by_cases h2 : n = a
      · subst h2
        simp
      · simp [h1, h2, show ¬ a < n + 1 by omega]

theorem count_or_disjoint (A B : Nat → Prop) [DecidablePred A] [DecidablePred B] (n : Nat)
    (h : ∀ q, q < n → ¬ (A q ∧ B q)) :
    Nat.count (fun q => A q ∨ B q) n = Nat.count A n + Nat.count B n := by
  induction n with
  | zero => simp
  | succ n ih =>
    rw [Nat.count_succ, Nat.count_succ, Nat.count_succ, ih (fun q hq => h q (by omega))]
    have := h n (by omega)
    by_cases hA : A n <;> by_cases hB : B n <;> simp [hA, hB] at this ⊢ <;> omega

theorem shr64_mono (l : Nat) {x y : Nat} (h : x ≤ y) : shr64 x l ≤ shr64 y l := by
  unfold shr64
  rw [Nat.shiftRight_eq_div_pow, Nat.shiftRight_eq_div_pow]
  exact Nat.div_le_div_right h

theorem hits_ge (l : Nat) : ∀ (xs : List Nat) (i p : Nat), EliasFano.hits l xs i p = true →
    ∃ x, x ∈ xs ∧ shr64 x l + i ≤ p := by
  intro xs
  induction xs with
  | nil => intro i p h; simp [EliasFano.hits] at h
  | cons x xs ih =>
    intro i p h
    simp only [EliasFano.hits, Bool.or_eq_true, decide_eq_true_eq] at h
    rcases h with h | h
    · exact ⟨x, List.mem_cons_self _ _, by omega⟩
    · obtain ⟨y, hy, hle⟩ := ih (i + 1) p h
      exact ⟨y, List.mem_cons_of_mem _ hy, by omega⟩

theorem hits_at (l : Nat) : ∀ (xs : List Nat) (i k : Nat) (hk : k < xs.length),
    EliasFano.hits l xs i (shr64 xs[k] l + (i + k)) = true := by
  intro xs
  induction xs with
  | nil => intro i k hk; simp at hk
  | cons x xs ih =>
    intro i k hk
    cases k with
    | zero => simp [EliasFano.hits]
    | succ k =>
      simp only [EliasFano.hits, List.getElem_cons_succ, Bool.or_eq_true, decide_eq_true_eq]
      right
      have := ih (i + 1) k (by simpa using hk)
      rw [show i + (k + 1) = i + 1 + k by omega]
      exact this

theorem count_hits (l : Nat) : ∀ (xs : List Nat) (i k : Nat) (hk : k < xs.length),
    xs.Pairwise (· ≤ ·) →
    Nat.count (fun q => EliasFano.hits l xs i q = true) (shr64 xs[k] l + (i + k)) = k := by
  intro xs
  induction xs with
  | nil => intro i k hk; simp at hk
  | cons x xs ih =>
    intro i k hk hs
    rw [List.pairwise_cons] at hs
    have hdisj : ∀ q, ¬ (q = shr64 x l + i ∧ EliasFano.hits l xs (i + 1) q = true) := by
      rintro q ⟨h1, h2⟩
      obtain ⟨y, hy, hle⟩ := hits_ge l xs (i + 1) q h2
      have := shr64_mono l (hs.1 y hy)
      omega
    have hsplit : ∀ n, Nat.count (fun q => EliasFano.hits l (x :: xs) i q = true) n =
        Nat.count (fun q => q = shr64 x l + i) n +
          Nat.count (fun q => EliasFano.hits l xs (i + 1) q = true) n := by
      intro n
      rw [← count_or_disjoint _ _ n (fun q _ => hdisj q)]
      apply count_congr_lt
      intro q _
      simp [EliasFano.hits]
    rw [hsplit, count_point]
    cases k with
    | zero =>
      simp only [List.getElem_cons_zero, Nat.add_zero, Nat.lt_irrefl, if_false, Nat.zero_add]
      rw [← count_false_eq (shr64 x l + i)]
      apply count_congr_lt
      intro q hq
      constructor
      · intro h
        obtain ⟨y, hy, hle⟩ := hits_ge l xs (i + 1) q h
        have := shr64_mono l (hs.1 y hy)
        omega
      · exact False.elim
    | succ k =>
      have hk2 : k < xs.length := by simpa using hk
      simp only [List.getElem_cons_succ]
      have hmono := shr64_mono l (hs.1 xs[k] (List.getElem_mem _))
      rw [if_pos (by omega), show i + (k + 1) = i + 1 + k by omega, ih (i + 1) k hk2 hs.2]
      omega

theorem setUpper_ok (l : Nat) : ∀ (xs : List Nat) (i : Nat) (data : List Nat),
    (∀ j (hj : j < xs.length), (shr64 xs[j] l + (i + j)) / 64 < data.length) →
    ∃ out, EliasFano.setUpper l xs i data = .ok out ∧ out.length = data.length ∧
      ∀ p, bitOf out p = (bitOf data p || EliasFano.hits l xs i p) := by
  intro xs
  induction xs with
  | nil =>
    intro i data _
    exact ⟨data, rfl, rfl, fun p => by simp [EliasFano.hits]⟩
  | cons x xs ih =>
    intro i data h
    have h0 := h 0 (by simp)
    simp only [List.getElem_cons_zero, Nat.add_zero] at h0
    simp only [EliasFano.setUpper, if_pos h0]
    obtain ⟨out, ho1, ho2, ho3⟩ := ih (i + 1)
      (BitVector.setBit data ((shr64 x l + i) / 64) ((shr64 x l + i) % 64)) (by
        intro j hj
        rw [setBit_length]
        have := h (j + 1) (by simpa using hj)
        simp only [List.getElem_cons_succ] at this
        rw [show i + 1 + j = i + (j + 1) by omega]
        exact this)
    refine ⟨out, ho1, by rw [ho2, setBit_length], ?_⟩
    intro p
    rw [ho3 p, bitOf_setBit _ _ _ _ h0 (Nat.mod_lt _ (by norm_num))]
    simp only [EliasFano.hits, Bool.or_assoc]
    congr 2
    apply decide_eq_decide.mpr
    omega

theorem bitOf_replicate_zero (m p : Nat) : bitOf (List.replicate m 0) p = false := by
  unfold bitOf
  have : (List.replicate m 0).getD (p / 64) 0 = 0 := by
    rw [List.getD_eq_getElem?_getD]
    by_cases h : p / 64 < m
    · rw [List.getElem?_eq_getElem (by simpa using h)]
      simp
    · rw [List.getElem?_eq_none (by simpa using h)]
      rfl
  rw [this]
  exact wordBit_zero _

theorem le_getLast_of_pairwise (values : List Nat) (hs : values.Pairwise (· ≤ ·))
    (j : Nat) (hj : j < values.length) : values[j] ≤ values.getLast?.getD 0 := by
  rw [List.getLast?_eq_getElem?, List.getElem?_eq_getElem (by omega)]
  simp only [Option.getD_some]
  rcases Nat.eq_or_lt_of_le (show j ≤ values.length - 1 by omega) with h | h
  · simp [h]
  · exact List.pairwise_iff_getElem.mp hs j (values.length - 1) hj (by omega) h

/-- The constructor succeeds on a sorted non-empty input, and the upper bit
vector holds exactly the bits at `(values[k] >> lower_bits) + k`. -/
theorem encode_sorted (values : List Nat) (hne : values ≠ [])
    (hs : values.Pairwise (· ≤ ·)) :
    ∃ data, EliasFano.encode values =
        .ok ⟨values.length, values.getLast?.getD 0,
          EliasFano.lowBitWidth (values.getLast?.getD 0) values.length,
          values.map (EliasFano.lowPart
            (EliasFano.lowBitWidth (values.getLast?.getD 0) values.length)),
          ⟨data, shr64 (values.getLast?.getD 0)
              (EliasFano.lowBitWidth (values.getLast?.getD 0) values.length) + values.length,
            BitVector.rankLoop data 0⟩⟩ ∧
      data.length = (shr64 (values.getLast?.getD 0)
        (EliasFano.lowBitWidth (values.getLast?.getD 0) values.length) + values.length + 63) / 64 ∧
      ∀ p, bitOf data p = EliasFano.hits
        (EliasFano.lowBitWidth (values.getLast?.getD 0) values.length) values 0 p := by
  have hn : values.length ≠ 0 := by
    intro h
    exact hne (List.length_eq_zero.mp h)
  generalize hl : EliasFano.lowBitWidth (values.getLast?.getD 0) values.length = l
  obtain ⟨out, ho1, ho2, ho3⟩ := setUpper_ok l values 0
    (List.replicate ((shr64 (values.getLast?.getD 0) l + values.length + 63) / 64) 0) (by
      intro j hj
      rw [List.length_replicate]
      have := shr64_mono l (le_getLast_of_pairwise values hs j hj)
      omega)
  refine ⟨out, ?_, by rw [ho2, List.length_replicate], ?_⟩
  · simp only [EliasFano.encode, if_neg hn, hl, ho1, BitVector.build_rank_metadata]
  · intro p
    rw [ho3 p, bitOf_replicate_zero]
    simp

theorem element_sorted (values : List Nat) (hne : values ≠ [])
    (hs : values.Pairwise (· ≤ ·)) (ef : EliasFano) (hef : EliasFano.encode values = .ok ef)
    (k : Nat) (hk : k < values.length) :
    EliasFano.element ef k = .ok (EliasFano.rebuilt ef.lower_bits values[k]) := by
  obtain ⟨data, h1, h2, h3⟩ := encode_sorted values hne hs
  rw [h1] at hef
  injection hef with hef
  subst hef
  simp only
  generalize hl : EliasFano.lowBitWidth (values.getLast?.getD 0) values.length = l at *
  have hcount : onesBefore data (shr64 values[k] l + k) = k := by
    unfold onesBefore
    have := count_hits l values 0 k hk hs
    rw [Nat.zero_add] at this
    exact (count_congr_lt _ (fun q _ => by rw [h3 q])).trans this
  have hbit : bitOf data (shr64 values[k] l + k) = true := by
    rw [h3]
    have := hits_at l values 0 k hk
    rw [Nat.zero_add] at this
    exact this
  have hle := shr64_mono l (le_getLast_of_pairwise values hs k hk)
  have hsel := select_onesBefore
    ⟨data, shr64 (values.getLast?.getD 0) l + values.length, BitVector.rankLoop data 0⟩ rfl
    (shr64 values[k] l + k) (by simp only; omega) hbit
  simp only [hcount] at hsel
  unfold EliasFano.element
  simp only [hsel, List.getElem?_map, List.getElem?_eq_getElem hk, Option.map_some']
  rw [sub64_of_le _ _ (by omega), Nat.add_sub_cancel]
  rfl

theorem decodeLoop_sorted (values : List Nat) (hne : values ≠ [])
    (hs : values.Pairwise (· ≤ ·)) (ef : EliasFano) (hef : EliasFano.encode values = .ok ef) :
    ∀ m i, i + m = values.length →
      EliasFano.decodeLoop ef m i =
        .ok ((values.drop i).map (EliasFano.rebuilt ef.lower_bits)) := by
  intro m
  induction m with
  | zero =>
    intro i hi
    rw [Nat.add_zero] at hi
    simp [EliasFano.decodeLoop, hi]
  | succ m ih =>
    intro i hi
    have hk : i < values.length := by omega
    simp only [EliasFano.decodeLoop, element_sorted values hne hs ef hef i hk,
      ih (i + 1) (by omega)]
    rw [List.drop_eq_getElem_cons hk, List.map_cons]

theorem encode_n (values : List Nat) (ef : EliasFano)
    (hef : EliasFano.encode values = .ok ef) : ef.n = values.length := by
  by_cases h : values.length = 0
  · simp only [EliasFano.encode, if_pos h] at hef
    injection hef with hef
    subst hef
    exact h.symm
  · simp only [EliasFano.encode, if_neg h] at hef
    split at hef
    · injection hef with hef
      subst hef
      rfl
    · exact Except.noConfusion hef

theorem encode_nil : EliasFano.encode [] = .ok ⟨0, 0, 0, [], BitVector.empty⟩ := rfl

/-- On a sorted input the constructor succeeds and `decode` returns the list of
rebuilt values. -/
theorem decode_sorted (values : List Nat) (hs : values.Pairwise (· ≤ ·)) :
    ∃ ef, EliasFano.encode values = .ok ef ∧ ef.n = values.length ∧
      ef.lower_bits = EliasFano.lowBitWidth (values.getLast?.getD 0) values.length ∧
      ef.decode = .ok (values.map (EliasFano.rebuilt ef.lower_bits)) ∧
      ∀ k (hk : k < values.length),
        EliasFano.element ef k = .ok (EliasFano.rebuilt ef.lower_bits values[k]) := by
  by_cases hne : values = []
  · subst hne
    exact ⟨_, encode_nil, rfl, rfl, rfl, fun k hk => by simp at hk⟩
  · obtain ⟨data, h1, _, _⟩ := encode_sorted values hne hs
    refine ⟨_, h1, rfl, rfl, ?_, fun k hk => element_sorted values hne hs _ h1 k hk⟩
    have := decodeLoop_sorted values hne hs _ h1 values.length 0 (by omega)
    simpa [EliasFano.decode] using this

theorem lowBitWidth_le (u n : Nat) :
    2 ^ EliasFano.lowBitWidth u n * n ≤ u ∨ EliasFano.lowBitWidth u n = 0 := by
  unfold EliasFano.lowBitWidth
  split
  · rename_i h
    left
    have h0 : 2 ^ 0 * n ≤ u := by
      have := Nat.div_mul_le_self u n
      have : 1 ≤ u / n := h.2
      have : n ≤ u / n * n := Nat.le_mul_of_pos_left n h.2
      omega
    exact Nat.findGreatest_spec (P := fun k => 2 ^ k * n ≤ u) (Nat.zero_le 64) h0
  · right; rfl

theorem lowBitWidth_lt (u n b : Nat) (hu : u < 2 ^ b) (hb : 0 < b) :
    EliasFano.lowBitWidth u n < b := by
  by_cases hn : 0 < n
  · rcases lowBitWidth_le u n with h | h
    · by_contra hcon
      have h1 : 2 ^ b ≤ 2 ^ EliasFano.lowBitWidth u n :=
        Nat.pow_le_pow_right (by norm_num) (by omega)
      have h2 : 2 ^ EliasFano.lowBitWidth u n ≤ 2 ^ EliasFano.lowBitWidth u n * n :=
        Nat.le_mul_of_pos_right _ hn
      omega
    · omega
  · unfold EliasFano.lowBitWidth
    rw [if_neg (by omega)]
    exact hb

theorem rebuilt_eq (l x : Nat) (hl : l < 64) (hx : x < 2 ^ 32) : EliasFano.rebuilt l x = x := by
  have hx64 : x < 2 ^ 64 := by omega
  have hpl : 2 ^ l < 2 ^ 64 := Nat.pow_lt_pow_right (by norm_num) hl
  have hpos : 0 < 2 ^ l := Nat.two_pow_pos l
  have hdiv : x / 2 ^ l ≤ x := Nat.div_le_self _ _
  have hmul : 2 ^ l * (x / 2 ^ l) ≤ x := Nat.mul_div_le x (2 ^ l)
  have hmod : x % 2 ^ l ≤ x := Nat.mod_le _ _
  have e1 : shr64 x l = x / 2 ^ l := by
    unfold shr64
    rw [Nat.mod_eq_of_lt hl, Nat.shiftRight_eq_div_pow]
  have e2 : x / 2 ^ l % 2 ^ 64 = x / 2 ^ l := Nat.mod_eq_of_lt (by omega)
  have e3 : x / 2 ^ l * 2 ^ l % 2 ^ 64 = x / 2 ^ l * 2 ^ l :=
    Nat.mod_eq_of_lt (by rw [Nat.mul_comm]; omega)
  have hhigh : shl64 (shr64 x l % 2 ^ 64) l = 2 ^ l * (x / 2 ^ l) := by
    rw [e1, e2]
    unfold shl64
    rw [Nat.mod_eq_of_lt hl, Nat.shiftLeft_eq, e3, Nat.mul_comm]
  have e4 : shl64 1 l = 2 ^ l := by
    unfold shl64
    rw [Nat.mod_eq_of_lt hl, Nat.one_shiftLeft]
    exact Nat.mod_eq_of_lt hpl
  have e5 : sub64 (2 ^ l) 1 = 2 ^ l - 1 := by
    rw [sub64_of_le _ _ (by omega)]
    exact Nat.mod_eq_of_lt (by omega)
  have hlow : EliasFano.lowPart l x = x % 2 ^ l := by
    unfold EliasFano.lowPart
    rw [e4, e5, Nat.and_pow_two_sub_one_eq_mod]
    exact Nat.mod_eq_of_lt (by omega)
  unfold EliasFano.rebuilt
  rw [hhigh, hlow, ← Nat.mul_add_lt_is_or (Nat.mod_lt _ hpos)]
  exact Nat.div_add_mod x (2 ^ l)

theorem pushAll_append (bv : BitVector) (a b : List Bool) :
    (bv.pushAll a).pushAll b = bv.pushAll (a ++ b) := by
  simp [BitVector.pushAll, List.foldl_append]

theorem push_back_eq_pushAll (bv : BitVector) (b : Bool) : bv.push_back b = bv.pushAll [b] := rfl

theorem pushZeros_eq (bv : BitVector) (q : Nat) :
    pushZeros bv q = bv.pushAll (List.replicate q false) := by
  induction q generalizing bv with
  | zero => rfl
  | succ q ih =>
    rw [pushZeros, ih, push_back_eq_pushAll, pushAll_append]
    rfl

theorem pushBits_eq (r k : Nat) (bv : BitVector) :
    pushBits r k bv = bv.pushAll (bitsMSB r k) := by
  induction k generalizing bv with
  | zero => rfl
  | succ k ih =>
    rw [pushBits, ih, push_back_eq_pushAll, pushAll_append]
    rfl

theorem encodeGap_eq (M : Nat) (bv : BitVector) (g : Nat) :
    encodeGap M bv g = bv.pushAll (codeOf M g) := by
  unfold encodeGap codeOf
  simp only
  split
  · rw [pushBits_eq, pushZeros_eq, push_back_eq_pushAll, pushAll_append, pushAll_append]
    simp
  · rw [pushBits_eq, pushZeros_eq, push_back_eq_pushAll, pushAll_append, pushAll_append]
    simp

theorem foldl_encodeGap (M : Nat) (gaps : List Nat) (bv : BitVector) :
    gaps.foldl (encodeGap M) bv = bv.pushAll (streamOf M gaps) := by
  induction gaps generalizing bv with
  | nil => rfl
  | cons g gs ih =>
    rw [List.foldl_cons, ih, encodeGap_eq, pushAll_append]
    rfl

theorem bitsMSB_length (r k : Nat) : (bitsMSB r k).length = k := by
  induction k with
  | zero => rfl
  | succ k ih => simp [bitsMSB, ih]

theorem take_bitsMSB (v k : Nat) (hk : k + 1 < 65) :
    (bitsMSB v (k + 1)).take k = bitsMSB (v / 2) k := by
  induction k with
  | zero => rfl
  | succ k ih =>
    rw [bitsMSB, List.take_succ_cons, ih (by omega)]
    conv_rhs => rw [bitsMSB]
    congr 2
    unfold shr64
    rw [Nat.mod_eq_of_lt (show k + 1 < 64 by omega), Nat.mod_eq_of_lt (show k < 64 by omega),
      Nat.shiftRight_eq_div_pow, Nat.shiftRight_eq_div_pow, Nat.div_div_eq_div_mul,
      ← Nat.pow_succ']

theorem valOf_bitsMSB (v : Nat) : ∀ k r, k ≤ 64 → (r + 1) * 2 ^ k ≤ 2 ^ 64 →
    valOf (bitsMSB v k) r = r * 2 ^ k + v % 2 ^ k := by
  intro k
  induction k with
  | zero => intro r _ _; simp [bitsMSB, valOf, Nat.mod_one]
  | succ k ih =>
    intro r hk hr
    have hpos : 0 < 2 ^ k := Nat.two_pow_pos k
    have hr2 : 2 * r < 2 ^ 64 := by
      have : (r + 1) * 2 ≤ (r + 1) * 2 ^ (k + 1) :=
        Nat.mul_le_mul_left _ (by rw [Nat.pow_succ]; omega)
      omega
    have hshl : shl64 r 1 = 2 * r := by
      unfold shl64
      rw [Nat.shiftLeft_eq]
      simp only [Nat.reduceMod, Nat.pow_one]
      rw [Nat.mul_comm]
      exact Nat.mod_eq_of_lt hr2
    have hbit : shr64 v k &&& 1 = v / 2 ^ k % 2 := by
      unfold shr64
      rw [Nat.mod_eq_of_lt (show k < 64 by omega), Nat.shiftRight_eq_div_pow, Nat.and_one_is_mod]
    have hor : ∀ c : Nat, c < 2 → 2 * r ||| c = 2 * r + c := by
      intro c hc
      have := Nat.mul_add_lt_is_or (i := 1) (b := c) (by simpa using hc) r
      simpa using this.symm
    have hstep : valOf (bitsMSB v (k + 1)) r =
        valOf (bitsMSB v k) (2 * r + v / 2 ^ k % 2) := by
      simp only [bitsMSB, valOf, List.foldl_cons, hshl, hbit]
      congr 1
      have hlt : v / 2 ^ k % 2 < 2 := Nat.mod_lt _ (by norm_num)
      by_cases h1 : v / 2 ^ k % 2 = 1
      · simp only [h1, decide_True, if_true]
        exact hor 1 (by norm_num)
      · have h0 : v / 2 ^ k % 2 = 0 := by omega
        simp only [h0]
        simp
    rw [hstep, ih _ (by omega) (by
      have hlt : v / 2 ^ k % 2 < 2 := Nat.mod_lt _ (by norm_num)
      have : (2 * r + v / 2 ^ k % 2 + 1) * 2 ^ k ≤ (2 * (r + 1)) * 2 ^ k :=
        Nat.mul_le_mul_right _ (by omega)
      have h2 : (2 * (r + 1)) * 2 ^ k = (r + 1) * 2 ^ (k + 1) := by ring
      omega)]
    rw [Nat.mod_pow_succ (b := 2) (x := v) (k := k)]
    ring

theorem getD_drop_eq (L : List Bool) (pos j : Nat) :
    L.getD (pos + j) false = (L.drop pos).getD j false := by
  simp [List.getD_eq_getElem?_getD, List.getElem?_drop]

theorem length_of_drop_eq (L : List Bool) (pos : Nat) (c rest : List Bool)
    (h : L.drop pos = c ++ rest) : pos + c.length + rest.length = L.length ∨
      (c.length + rest.length = 0) := by
  have := congrArg List.length h
  rw [List.length_drop, List.length_append] at this
  omega

theorem drop_add_of_drop_eq (L : List Bool) (pos : Nat) (c rest : List Bool)
    (h : L.drop pos = c ++ rest) : L.drop (pos + c.length) = rest := by
  rw [← List.drop_drop, h, List.drop_left]

theorem get_of_drop_cons (bv : BitVector) (L : List Bool) (hH : Holds bv L) (pos : Nat)
    (b : Bool) (rest : List Bool) (h : L.drop pos = b :: rest) :
    pos < L.length ∧ bv.get pos = .ok b := by
  have hlen : pos < L.length := by
    have := congrArg List.length h
    rw [List.length_drop, List.length_cons] at this
    omega
  refine ⟨hlen, ?_⟩
  rw [get_of_holds bv L hH pos hlen]
  have := getD_drop_eq L pos 0
  rw [Nat.add_zero, h] at this
  rw [this]
  rfl

theorem skipZeros_spec (bv : BitVector) (L : List Bool) (hH : Holds bv L)
    (rest : List Bool) : ∀ q fuel pos q0,
    L.drop pos = List.replicate q false ++ true :: rest → q < fuel →
    skipZeros bv fuel pos q0 = .ok (pos + q, q0 + q) := by
  intro q
  induction q with
  | zero =>
    intro fuel pos q0 h hf
    obtain ⟨f, rfl⟩ : ∃ f, fuel = f + 1 := ⟨fuel - 1, by omega⟩
    simp only [List.replicate_zero, List.nil_append] at h
    obtain ⟨h1, h2⟩ := get_of_drop_cons bv L hH pos true _ h
    simp [skipZeros, BitVector.size, hH.1, h1, h2]
  | succ q ih =>
    intro fuel pos q0 h hf
    obtain ⟨f, rfl⟩ : ∃ f, fuel = f + 1 := ⟨fuel - 1, by omega⟩
    rw [List.replicate_succ, List.cons_append] at h
    obtain ⟨h1, h2⟩ := get_of_drop_cons bv L hH pos false _ h
    have hnext : L.drop (pos + 1) = List.replicate q false ++ true :: rest := by
      have := drop_add_of_drop_eq L pos [false] _ h
      simpa using this
    simp only [skipZeros, BitVector.size, hH.1, h1, h2, if_true, Bool.not_false]
    rw [ih f (pos + 1) (q0 + 1) hnext (by omega)]
    congr 2 <;> omega

theorem readBits_spec (bv : BitVector) (L : List Bool) (hH : Holds bv L) (pos : Nat) :
    ∀ k i r, pos + i + k ≤ L.length →
    readBits bv pos k i r = .ok (valOf ((L.drop (pos + i)).take k) r) := by
  intro k
  induction k with
  | zero => intro i r _; simp [readBits, valOf]
  | succ k ih =>
    intro i r h
    have hlt : pos + i < L.length := by omega
    rw [readBits, get_of_holds bv L hH _ hlt]
    simp only
    rw [ih (i + 1) _ (by omega), List.drop_eq_getElem_cons hlt, List.take_succ_cons]
    simp only [valOf, List.foldl_cons]
    rw [List.getD_eq_getElem?_getD, List.getElem?_eq_getElem hlt]
    rfl

theorem readBits_of_drop (bv : BitVector) (L : List Bool) (hH : Holds bv L) (pos : Nat)
    (c rest : List Bool) (h : L.drop pos = c ++ rest) (k : Nat) (hk : k ≤ c.length) :
    readBits bv pos k 0 0 = .ok (valOf (c.take k) 0) := by
  have hlen := congrArg List.length h
  rw [List.length_drop, List.length_append] at hlen
  cases k with
  | zero => simp [readBits, valOf]
  | succ k =>
    rw [readBits_spec bv L hH pos (k + 1) 0 0 (by omega)]
    simp only [Nat.add_zero]
    rw [h, List.take_append_of_le_length hk]

theorem goodM_of (M : Nat) (h2 : 2 ≤ M) (hM : M ≤ 2 ^ 63) : GoodM M := by
  have hb : bitsFor M = Nat.findGreatest (fun k => 2 ^ k < M) 64 + 1 := by
    unfold bitsFor
    rw [if_pos (by omega)]
  have hspec : 2 ^ Nat.findGreatest (fun k => 2 ^ k < M) 64 < M :=
    Nat.findGreatest_spec (P := fun k => 2 ^ k < M) (Nat.zero_le 64) (by simpa using h2)
  have hk : Nat.findGreatest (fun k => 2 ^ k < M) 64 < 63 := by
    by_contra hcon
    have : 2 ^ 63 ≤ 2 ^ Nat.findGreatest (fun k => 2 ^ k < M) 64 :=
      Nat.pow_le_pow_right (by norm_num) (by omega)
    omega
  have hup : M ≤ 2 ^ (Nat.findGreatest (fun k => 2 ^ k < M) 64 + 1) := by
    have := Nat.findGreatest_is_greatest (P := fun k => 2 ^ k < M)
      (Nat.lt_succ_self (Nat.findGreatest (fun k => 2 ^ k < M) 64)) (by omega)
    simpa using this
  have hb64 : bitsFor M < 64 := by omega
  have hshl : shl64 1 (bitsFor M) = 2 ^ bitsFor M := by
    unfold shl64
    rw [Nat.mod_eq_of_lt hb64, Nat.one_shiftLeft]
    exact Nat.mod_eq_of_lt (Nat.pow_lt_pow_right (by norm_num) hb64)
  have hlt : 2 ^ bitsFor M < 2 ^ 64 := Nat.pow_lt_pow_right (by norm_num) hb64
  refine ⟨h2, by omega, by omega, ?_, ?_, ?_⟩
  · rw [hb, Nat.add_sub_cancel]; exact hspec
  · rw [hb]; exact hup
  · unfold thresholdFor
    rw [hshl, sub64_of_le _ _ (by rw [hb]; exact hup)]
    exact Nat.mod_eq_of_lt (by omega)

theorem valOf_bitsMSB_zero (v k : Nat) (hk : k ≤ 64) (hv : v < 2 ^ k) :
    valOf (bitsMSB v k) 0 = v := by
  rw [valOf_bitsMSB v k 0 hk (by
    rw [Nat.zero_add, Nat.one_mul]; exact Nat.pow_le_pow_right (by norm_num) hk)]
  rw [Nat.zero_mul, Nat.zero_add, Nat.mod_eq_of_lt hv]

theorem readBits_all (bv : BitVector) (L : List Bool) (hH : Holds bv L) (pos v k : Nat)
    (rest : List Bool) (h : L.drop pos = bitsMSB v k ++ rest) :
    readBits bv pos k 0 0 = .ok (valOf (bitsMSB v k) 0) := by
  rw [readBits_of_drop bv L hH pos _ rest h k (by rw [bitsMSB_length]),
    List.take_of_length_le (by rw [bitsMSB_length])]

theorem readLong_spec (gd : GolombDelta) (L : List Bool) (hH : Holds gd.encoded L)
    (hM : GoodM gd.M) (q r : Nat) (hr : r < gd.M) (hg : q * gd.M + r < 2 ^ 64)
    (hrt : thresholdFor gd.M ≤ r) (pos : Nat) (rest : List Bool)
    (h : L.drop pos = bitsMSB (r + thresholdFor gd.M) (bitsFor gd.M) ++ rest) :
    readLong gd pos q = .ok (q * gd.M + r, pos + bitsFor gd.M) := by
  have hlen := congrArg List.length h
  rw [List.length_drop, List.length_append, bitsMSB_length] at hlen
  have hb := hM.b_pos
  have hv : r + thresholdFor gd.M < 2 ^ bitsFor gd.M := by
    have := hM.thr
    have := hM.upper
    omega
  unfold readLong
  simp only [BitVector.size, hH.1]
  have hb64 := hM.b_lt
  have hup := hM.upper
  have hp64 : 2 ^ bitsFor gd.M < 2 ^ 64 := Nat.pow_lt_pow_right (by norm_num) hb64
  rw [if_pos (by omega), readBits_all gd.encoded L hH pos _ _ rest h]
  simp only
  rw [valOf_bitsMSB_zero _ _ (by omega) hv, sub64_of_le _ _ (by omega), Nat.add_sub_cancel,
    Nat.mod_eq_of_lt (a := r) (by omega), Nat.mod_eq_of_lt hg]

theorem readRemainder_spec (gd : GolombDelta) (L : List Bool) (hH : Holds gd.encoded L)
    (hM : GoodM gd.M) (q r : Nat) (hr : r < gd.M) (hg : q * gd.M + r < 2 ^ 64)
    (pos : Nat) (rest : List Bool) (h : L.drop pos = remBits gd.M r ++ rest) :
    readRemainder gd pos q = .ok (q * gd.M + r, pos + (remBits gd.M r).length) := by
  have hb := hM.b_pos
  have hb64 := hM.b_lt
  have hthr := hM.thr
  have hup := hM.upper
  have hlow := hM.lower
  have h2 := hM.two_le
  have hpow : 2 ^ bitsFor gd.M = 2 * 2 ^ (bitsFor gd.M - 1) := by
    rw [← Nat.pow_succ']
    congr 1
    omega
  have hp64 : 2 ^ bitsFor gd.M < 2 ^ 64 := Nat.pow_lt_pow_right (by norm_num) hb64
  by_cases hrt : r < thresholdFor gd.M
  · -- short remainder
    have hrem : remBits gd.M r = bitsMSB r (bitsFor gd.M - 1) := by
      unfold remBits; rw [if_pos hrt]
    rw [hrem] at h ⊢
    have hlen := congrArg List.length h
    rw [List.length_drop, List.length_append, bitsMSB_length] at hlen
    have hb2 : 0 < bitsFor gd.M - 1 := by
      by_contra hcon
      have h1 : bitsFor gd.M = 1 := by omega
      rw [h1] at hup hthr
      simp only [Nat.pow_one] at hup hthr
      omega
    unfold readRemainder
    simp only [BitVector.size, hH.1]
    rw [if_pos ⟨hb2, by omega⟩, readBits_all gd.encoded L hH pos _ _ rest h]
    simp only
    rw [valOf_bitsMSB_zero _ _ (by omega) (by omega), if_pos hrt, Nat.mod_eq_of_lt hg,
      bitsMSB_length]
  · -- long remainder
    have hadd : add64 r (thresholdFor gd.M) = r + thresholdFor gd.M := by
      unfold add64
      exact Nat.mod_eq_of_lt (by omega)
    have hrem : remBits gd.M r = bitsMSB (r + thresholdFor gd.M) (bitsFor gd.M) := by
      unfold remBits; rw [if_neg hrt, hadd]
    rw [hrem] at h ⊢
    have hlen := congrArg List.length h
    rw [List.length_drop, List.length_append, bitsMSB_length] at hlen
    have hlong := readLong_spec gd L hH hM q r hr hg (by omega) pos rest h
    rw [bitsMSB_length]
    unfold readRemainder
    simp only [BitVector.size, hH.1]
    by_cases hb2 : 0 < bitsFor gd.M - 1
    · rw [if_pos ⟨hb2, by omega⟩,
        readBits_of_drop gd.encoded L hH pos _ rest h (bitsFor gd.M - 1)
          (by rw [bitsMSB_length]; omega)]
      simp only
      have hk : bitsFor gd.M = (bitsFor gd.M - 1) + 1 := by omega
      have htake : (bitsMSB (r + thresholdFor gd.M) (bitsFor gd.M)).take (bitsFor gd.M - 1) =
          bitsMSB ((r + thresholdFor gd.M) / 2) (bitsFor gd.M - 1) := by
        conv_lhs => rw [hk]
        simp only [Nat.add_sub_cancel]
        exact take_bitsMSB _ _ (by omega)
      rw [htake, valOf_bitsMSB_zero _ _ (by omega) (by omega), if_neg (by omega)]
      exact hlong
    · rw [if_neg (fun hc => hb2 hc.1)]
      exact hlong

theorem codeOf_eq (M g : Nat) :
    codeOf M g = (List.replicate (g / M) false ++ [true]) ++ remBits M (g % M) := by
  simp [codeOf, remBits]

theorem decodeGap_spec (gd : GolombDelta) (L : List Bool) (hH : Holds gd.encoded L)
    (hM : GoodM gd.M) (g : Nat) (hg : g < 2 ^ 64) (pos : Nat) (rest : List Bool)
    (h : L.drop pos = codeOf gd.M g ++ rest) :
    decodeGap gd pos = .ok (g, pos + (codeOf gd.M g).length) := by
  have hMpos : 0 < gd.M := by have := hM.two_le; omega
  have hlen := congrArg List.length h
  rw [List.length_drop, List.length_append, codeOf_eq] at hlen
  simp only [List.length_append, List.length_replicate, List.length_singleton] at hlen
  have h1 : L.drop pos = List.replicate (g / gd.M) false ++
      true :: (remBits gd.M (g % gd.M) ++ rest) := by
    rw [h, codeOf_eq]
    simp
  have hskip := skipZeros_spec gd.encoded L hH _ (g / gd.M) (L.length - pos) pos 0 h1
    (by rw [hlen]; omega)
  have h2 : L.drop (pos + g / gd.M + 1) = remBits gd.M (g % gd.M) ++ rest := by
    have := drop_add_of_drop_eq L pos (List.replicate (g / gd.M) false ++ [true])
      (remBits gd.M (g % gd.M) ++ rest) (by rw [h1]; simp)
    simpa [Nat.add_assoc] using this
  have hdm : g / gd.M * gd.M + g % gd.M = g := by
    rw [Nat.mul_comm]
    exact Nat.div_add_mod g gd.M
  have hrem := readRemainder_spec gd L hH hM (g / gd.M) (g % gd.M) (Nat.mod_lt _ hMpos)
    (by omega) (pos + g / gd.M + 1) rest h2
  unfold decodeGap
  simp only [BitVector.size, hH.1, hskip, Nat.zero_add]
  rw [codeOf_eq]
  simp only [List.length_append, List.length_replicate, List.length_singleton]
  generalize g / gd.M = q at *
  rw [if_pos (by omega), hrem, hdm]
  congr 2
  omega

theorem codeOf_length_pos (M g : Nat) : 0 < (codeOf M g).length := by
  rw [codeOf_eq]
  simp

theorem decodeGaps_spec (gd : GolombDelta) (L : List Bool) (hH : Holds gd.encoded L)
    (hM : GoodM gd.M) : ∀ (gs : List Nat) (k pos : Nat), gs.length ≤ k →
    (∀ g, g ∈ gs → g < 2 ^ 64) → L.drop pos = streamOf gd.M gs →
    decodeGaps gd k pos = .ok gs := by
  intro gs
  induction gs with
  | nil =>
    intro k pos _ _ h
    have hlen := congrArg List.length h
    rw [List.length_drop] at hlen
    simp only [streamOf, List.length_nil] at hlen
    cases k with
    | zero => rfl
    | succ k =>
      simp only [decodeGaps, BitVector.size, hH.1]
      rw [if_neg (by omega)]
  | cons g gs ih =>
    intro k pos hk hb h
    obtain ⟨k, rfl⟩ : ∃ m, k = m + 1 := ⟨k - 1, by simp at hk; omega⟩
    simp only [streamOf] at h
    have hlen := congrArg List.length h
    rw [List.length_drop, List.length_append] at hlen
    have hpos := codeOf_length_pos gd.M g
    have hgap := decodeGap_spec gd L hH hM g (hb g (List.mem_cons_self _ _)) pos _ h
    have hnext := drop_add_of_drop_eq L pos _ _ h
    simp only [decodeGaps, BitVector.size, hH.1]
    rw [if_pos (by omega), hgap]
    simp only
    rw [ih k _ (by simpa using hk) (fun x hx => hb x (List.mem_cons_of_mem _ hx)) hnext]

theorem sumsFrom_gapsFrom (vs : List Nat) : ∀ v, (v :: vs).Pairwise (· ≤ ·) →
    (∀ x, x ∈ vs → x < 2 ^ 64) → sumsFrom v (gapsFrom v vs) = vs := by
  induction vs with
  | nil => intro v _ _; rfl
  | cons x xs ih =>
    intro v hs hb
    have hvx : v ≤ x := List.rel_of_pairwise_cons hs (List.mem_cons_self _ _)
    have hx : x < 2 ^ 64 := hb x (List.mem_cons_self _ _)
    have hadd : add64 v (sub64 x v) = x := by
      rw [sub64_of_le _ _ hvx]
      unfold add64
      omega
    simp only [gapsFrom, sumsFrom, hadd]
    rw [ih x (List.Pairwise.of_cons hs) (fun y hy => hb y (List.mem_cons_of_mem _ hy))]

theorem valuesOf_gapsOf (vs : List Nat) (hs : vs.Pairwise (· ≤ ·))
    (hb : ∀ x, x ∈ vs → x < 2 ^ 64 - 1) : valuesOf (gapsOf vs) = vs := by
  cases vs with
  | nil => rfl
  | cons v vs =>
    have hv := hb v (List.mem_cons_self _ _)
    have h1 : sub64 (add64 v 1) 1 = v := by
      unfold add64 sub64
      omega
    simp only [gapsOf, valuesOf, h1]
    rw [sumsFrom_gapsFrom vs v hs (fun x hx => by
      have := hb x (List.mem_cons_of_mem _ hx); omega)]

theorem foldl_add64_gapsFrom (vs : List Nat) : ∀ v, (v :: vs).Pairwise (· ≤ ·) →
    (∀ x, x ∈ (v :: vs) → x < 2 ^ 64 - 1) →
    (gapsFrom v vs).foldl add64 (v + 1) = (v :: vs).getLast?.getD 0 + 1 := by
  induction vs with
  | nil => intro v _ _; rfl
  | cons x xs ih =>
    intro v hs hb
    have hvx : v ≤ x := List.rel_of_pairwise_cons hs (List.mem_cons_self _ _)
    have hx : x < 2 ^ 64 - 1 := hb x (List.mem_cons_of_mem _ (List.mem_cons_self _ _))
    have hadd : add64 (v + 1) (sub64 x v) = x + 1 := by
      rw [sub64_of_le _ _ hvx]
      unfold add64
      omega
    simp only [gapsFrom, List.foldl_cons, hadd]
    rw [ih x (List.Pairwise.of_cons hs) (fun y hy => hb y (List.mem_cons_of_mem _ hy))]
    simp [List.getLast?_cons_cons]

theorem gapsOf_length (vs : List Nat) : (gapsOf vs).length = vs.length := by
  cases vs with
  | nil => rfl
  | cons v vs =>
    simp only [gapsOf, List.length_cons]
    congr 1
    induction vs generalizing v with
    | nil => rfl
    | cons x xs ih => simp [gapsFrom, ih]

theorem sum_gapsOf (vs : List Nat) (hne : vs ≠ []) (hs : vs.Pairwise (· ≤ ·))
    (hb : ∀ x, x ∈ vs → x < 2 ^ 64 - 1) :
    (gapsOf vs).foldl add64 0 = vs.getLast?.getD 0 + 1 := by
  cases vs with
  | nil => exact absurd rfl hne
  | cons v vs =>
    have hv := hb v (List.mem_cons_self _ _)
    have h1 : add64 0 (add64 v 1) = v + 1 := by
      unfold add64
      omega
    simp only [gapsOf, List.foldl_cons, h1]
    exact foldl_add64_gapsFrom vs v hs hb

theorem gapsFrom_lt (vs : List Nat) : ∀ v g, g ∈ gapsFrom v vs → g < 2 ^ 64 := by
  induction vs with
  | nil => intro v g h; simp [gapsFrom] at h
  | cons x xs ih =>
    intro v g h
    simp only [gapsFrom, List.mem_cons] at h
    rcases h with h | h
    · rw [h]; unfold sub64; exact Nat.mod_lt _ (by norm_num)
    · exact ih x g h

theorem gapsOf_lt (vs : List Nat) (g : Nat) (h : g ∈ gapsOf vs) : g < 2 ^ 64 := by
  cases vs with
  | nil => simp [gapsOf] at h
  | cons v vs =>
    simp only [gapsOf, List.mem_cons] at h
    rcases h with h | h
    · rw [h]; unfold add64; exact Nat.mod_lt _ (by norm_num)
    · exact gapsFrom_lt vs v g h

/-- The Golomb parameter of a non-empty sorted input: the ceiling of
`(last + 1) / n`, at least 1. -/
theorem compute_M_gapsOf (vs : List Nat) (hne : vs ≠ []) (hs : vs.Pairwise (· ≤ ·))
    (hb : ∀ x, x ∈ vs → x < 2 ^ 64 - 1) :
    compute_M (gapsOf vs) =
      max 1 ((vs.getLast?.getD 0 + 1 + vs.length - 1) / vs.length) := by
  have hlen : (gapsOf vs).length ≠ 0 := by
    rw [gapsOf_length]
    exact fun h => hne (List.length_eq_zero.mp h)
  have hemp : (gapsOf vs).isEmpty = false := by
    cases hg : gapsOf vs with
    | nil => rw [hg] at hlen; simp at hlen
    | cons a b => rfl
  unfold compute_M
  simp only [hemp, sum_gapsOf vs hne hs hb, gapsOf_length]
  simp

/-- Round trip of the Golomb-delta codec when the parameter is at least 2 and
fits a shift. -/
theorem golomb_roundtrip (vs : List Nat) (hne : vs ≠ []) (hs : vs.Pairwise (· ≤ ·))
    (hb : ∀ x, x ∈ vs → x < 2 ^ 32) (hlast : vs.length ≤ vs.getLast?.getD 0)
    (numValues : Nat) (hn : vs.length ≤ numValues) :
    (GolombDelta.encode vs).decode numValues = .ok vs := by
  have hb64 : ∀ x, x ∈ vs → x < 2 ^ 64 - 1 := fun x hx => by have := hb x hx; omega
  have hempty : vs.isEmpty = false := by
    cases vs with
    | nil => exact absurd rfl hne
    | cons a b => rfl
  have hlenpos : 0 < vs.length := List.length_pos.mpr hne
  have hlastlt : vs.getLast?.getD 0 < 2 ^ 32 := by
    rw [List.getLast?_eq_getLast _ hne]
    exact hb _ (List.getLast_mem hne)
  have hMeq := compute_M_gapsOf vs hne hs hb64
  have hM2 : 2 ≤ compute_M (gapsOf vs) := by
    rw [hMeq]
    have : 2 ≤ (vs.getLast?.getD 0 + 1 + vs.length - 1) / vs.length := by
      rw [Nat.le_div_iff_mul_le hlenpos]
      omega
    omega
  have hMle : compute_M (gapsOf vs) ≤ 2 ^ 63 := by
    rw [hMeq]
    have : (vs.getLast?.getD 0 + 1 + vs.length - 1) / vs.length ≤
        vs.getLast?.getD 0 + 1 + vs.length - 1 := Nat.div_le_self _ _
    have : (vs.getLast?.getD 0 + 1 + vs.length - 1) / vs.length ≤ 2 ^ 33 := by
      rw [Nat.div_le_iff_le_mul_add_pred hlenpos]
      have : 1 * vs.length ≤ 2 ^ 33 * vs.length := Nat.mul_le_mul_right _ (by norm_num)
      rw [Nat.mul_comm]
      omega
    omega
  have hgood := goodM_of _ hM2 hMle
  have henc : GolombDelta.encode vs =
      ⟨compute_M (gapsOf vs),
        BitVector.empty.pushAll (streamOf (compute_M (gapsOf vs)) (gapsOf vs))⟩ := by
    unfold GolombDelta.encode
    simp only [hempty, Bool.false_eq_true, if_false, foldl_encodeGap]
  have hH := holds_pushAll_empty (streamOf (compute_M (gapsOf vs)) (gapsOf vs))
  have hdec := decodeGaps_spec ⟨compute_M (gapsOf vs),
      BitVector.empty.pushAll (streamOf (compute_M (gapsOf vs)) (gapsOf vs))⟩ _ hH hgood
    (gapsOf vs) numValues 0 (by rw [gapsOf_length]; exact hn) (gapsOf_lt vs) (by simp)
  rw [henc]
  unfold GolombDelta.decode
  rw [hdec]
  simp only
  rw [valuesOf_gapsOf vs hs hb64]

theorem holds_foldl_step (calls : List BitVector.Call) : ∀ (bv : BitVector) (bs : List Bool),
    Holds bv bs → Holds (calls.foldl BitVector.step bv) (bs ++ BitVector.pushedBits calls) := by
  induction calls with
  | nil => intro bv bs h; simpa [BitVector.pushedBits] using h
  | cons c cs ih =>
    intro bv bs h
    cases c with
    | push bit =>
      have := ih (bv.push_back bit) (bs ++ [bit]) (holds_push_back bv bs bit h)
      simpa [BitVector.pushedBits, BitVector.step] using this
    | build =>
      have := ih bv.build_rank_metadata bs (holds_build bv bs h)
      simpa [BitVector.pushedBits, BitVector.step] using this

theorem holds_runCalls (calls : List BitVector.Call) :
    Holds (BitVector.runCalls calls) (BitVector.pushedBits calls) := by
  simpa [BitVector.runCalls] using holds_foldl_step calls BitVector.empty [] holds_empty

theorem exists_nth_true (bs : List Bool) : ∀ i, i < bs.count true →
    ∃ p, p < bs.length ∧ bs.getD p false = true ∧ (bs.take p).count true = i := by
  induction bs with
  | nil => intro i hi; simp at hi
  | cons b bs ih =>
    intro i hi
    cases b with
    | false =>
      rw [List.count_cons_of_ne (by decide)] at hi
      obtain ⟨p, h1, h2, h3⟩ := ih i hi
      refine ⟨p + 1, by simpa using h1, by simpa using h2, ?_⟩
      rw [List.take_succ_cons, List.count_cons_of_ne (by decide)]
      exact h3
    | true =>
      cases i with
      | zero => exact ⟨0, by simp, rfl, rfl⟩
      | succ i =>
        rw [List.count_cons_self] at hi
        obtain ⟨p, h1, h2, h3⟩ := ih i (by omega)
        refine ⟨p + 1, by simpa using h1, by simpa using h2, ?_⟩
        rw [List.take_succ_cons, List.count_cons_self, h3]

/-- Select on a built vector that holds the bits `bs`. -/
theorem select_of_holds (bv : BitVector) (bs : List Bool) (h : Holds bv bs) (p : Nat)
    (hp : p < bs.length) (hbit : bs.getD p false = true) :
    bv.build_rank_metadata.select ((bs.take p).count true) = .ok p := by
  have hH := holds_build bv bs h
  have := select_onesBefore bv.build_rank_metadata rfl p
    (by have := hH.2.1; have : bv.build_rank_metadata.data = bv.data := rfl; omega)
    (by rw [hH.2.2 p]; exact hbit)
  rw [onesBefore_of_holds _ bs hH p] at this
  exact this

theorem mem_le_getLast (vs : List Nat) (hs : vs.Pairwise (· ≤ ·)) (x : Nat) (hx : x ∈ vs) :
    x ≤ vs.getLast?.getD 0 := by
  obtain ⟨j, hj, rfl⟩ := List.getElem_of_mem hx
  exact le_getLast_of_pairwise vs hs j hj

theorem decodeGaps_cons_inv (gd : GolombDelta) (k pos g : Nat) (rest : List Nat)
    (h : decodeGaps gd k pos = .ok (g :: rest)) :
    ∃ m p, k = m + 1 ∧ pos < gd.encoded.size ∧ decodeGap gd pos = .ok (g, p) ∧
      decodeGaps gd m p = .ok rest := by
  cases k with
  | zero => simp [decodeGaps] at h
  | succ m =>
    simp only [decodeGaps] at h
    split at h
    · rename_i hlt
      split at h
      · rename_i gap p hgap
        split at h
        · rename_i rest2 hrest
          injection h with h
          injection h with h1 h2
          subst h1
          subst h2
          exact ⟨m, p, rfl, hlt, hgap, hrest⟩
        · exact Except.noConfusion h
      · exact Except.noConfusion h
    · injection h with h
      exact List.noConfusion h

theorem accessLoop_sumsFrom (gd : GolombDelta) : ∀ (i k pos : Nat) (gs : List Nat) (c v : Nat),
    decodeGaps gd k pos = .ok gs → i < gs.length → c ≠ 0 →
    (sumsFrom v gs)[i]? = some ((sumsFrom v gs).getD i 0) ∧
      accessLoop gd (i + 1) pos c v = .ok ((sumsFrom v gs).getD i 0) := by
  intro i
  induction i with
  | zero =>
    intro k pos gs c v h hi hc
    cases gs with
    | nil => simp at hi
    | cons g rest =>
      obtain ⟨m, p, _, hlt, hgap, _⟩ := decodeGaps_cons_inv gd k pos g rest h
      refine ⟨by simp [sumsFrom], ?_⟩
      simp [accessLoop, hlt, hgap, hc, sumsFrom]
  | succ i ih =>
    intro k pos gs c v h hi hc
    cases gs with
    | nil => simp at hi
    | cons g rest =>
      obtain ⟨m, p, _, hlt, hgap, hrest⟩ := decodeGaps_cons_inv gd k pos g rest h
      have := ih m p rest (c + 1) (add64 v g) hrest (by simpa using hi) (by omega)
      refine ⟨by simpa [sumsFrom] using this.1, ?_⟩
      rw [accessLoop, if_pos hlt, hgap]
      simp only [if_neg hc]
      rw [this.2]
      simp [sumsFrom]

theorem sumsFrom_length (l : List Nat) : ∀ v, (sumsFrom v l).length = l.length := by
  induction l with
  | nil => intro v; rfl
  | cons a b ih => intro v; simp only [sumsFrom, List.length_cons, ih]

theorem decode_inv (gd : GolombDelta) (n : Nat) (out : List Nat) (h : gd.decode n = .ok out) :
    ∃ gs, decodeGaps gd n 0 = .ok gs ∧ out = valuesOf gs := by
  unfold GolombDelta.decode at h
  cases hg : decodeGaps gd n 0 with
  | error e => rw [hg] at h; exact Except.noConfusion h
  | ok gs =>
    rw [hg] at h
    injection h with h
    exact ⟨gs, rfl, h.symm⟩

theorem valuesOf_cons (g : Nat) (gs : List Nat) :
    valuesOf (g :: gs) = sub64 g 1 :: sumsFrom (sub64 g 1) gs := rfl

theorem get_ok_of_holds (bv : BitVector) (L : List Bool) (hH : Holds bv L) (p : Nat)
    (hp : p < bv.size) : ∃ b, bv.get p = .ok b :=
  ⟨_, get_of_holds bv L hH p (by unfold BitVector.size at hp; rw [hH.1] at hp; exact hp)⟩

theorem skipZeros_ok (bv : BitVector) (L : List Bool) (hH : Holds bv L) :
    ∀ fuel pos q, ∃ r, skipZeros bv fuel pos q = .ok r := by
  intro fuel
  induction fuel with
  | zero => intro pos q; exact ⟨_, rfl⟩
  | succ f ih =>
    intro pos q
    by_cases hp : pos < bv.size
    · obtain ⟨b, hb⟩ := get_ok_of_holds bv L hH pos hp
      cases b with
      | false =>
        obtain ⟨r, hr⟩ := ih (pos + 1) (q + 1)
        refine ⟨r, ?_⟩
        rw [skipZeros, if_pos hp, hb]
        exact hr
      | true =>
        refine ⟨(pos, q), ?_⟩
        rw [skipZeros, if_pos hp, hb]
        rfl
    · refine ⟨(pos, q), ?_⟩
      rw [skipZeros, if_neg hp]

theorem readBits_ok (bv : BitVector) (L : List Bool) (hH : Holds bv L) (pos k : Nat)
    (h : pos + k ≤ bv.size) : ∃ r, readBits bv pos k 0 0 = .ok r :=
  ⟨_, readBits_spec bv L hH pos k 0 0 (by unfold BitVector.size at h; rw [hH.1] at h; omega)⟩

theorem readLong_ok (gd : GolombDelta) (L : List Bool) (hH : Holds gd.encoded L)
    (pos q : Nat) : ∃ r, readLong gd pos q = .ok r := by
  unfold readLong
  by_cases h : pos + bitsFor gd.M ≤ gd.encoded.size
  · obtain ⟨r, hr⟩ := readBits_ok gd.encoded L hH pos _ h
    simp only [if_pos h, hr]
    exact ⟨_, rfl⟩
  · simp only [if_neg h]
    exact ⟨_, rfl⟩

theorem readRemainder_ok (gd : GolombDelta) (L : List Bool) (hH : Holds gd.encoded L)
    (pos q : Nat) : ∃ r, readRemainder gd pos q = .ok r := by
  unfold readRemainder
  by_cases h : 0 < bitsFor gd.M - 1 ∧ pos + (bitsFor gd.M - 1) ≤ gd.encoded.size
  · obtain ⟨r, hr⟩ := readBits_ok gd.encoded L hH pos _ h.2
    simp only [if_pos h, hr]
    by_cases ht : r < thresholdFor gd.M
    · rw [if_pos ht]
      exact ⟨_, rfl⟩
    · rw [if_neg ht]
      exact readLong_ok gd L hH pos q
  · simp only [if_neg h]
    exact readLong_ok gd L hH pos q

theorem decodeGap_ok (gd : GolombDelta) (L : List Bool) (hH : Holds gd.encoded L)
    (pos : Nat) : ∃ r, decodeGap gd pos = .ok r := by
  unfold decodeGap
  obtain ⟨⟨p, q⟩, hr⟩ := skipZeros_ok gd.encoded L hH (gd.encoded.size - pos) pos 0
  rw [hr]
  exact readRemainder_ok gd L hH _ q

theorem decodeGaps_ok (gd : GolombDelta) (L : List Bool) (hH : Holds gd.encoded L) :
    ∀ k pos, ∃ gs, decodeGaps gd k pos = .ok gs ∧ gs.length ≤ k := by
  intro k
  induction k with
  | zero => intro pos; exact ⟨[], rfl, le_refl _⟩
  | succ k ih =>
    intro pos
    by_cases hp : pos < gd.encoded.size
    · obtain ⟨⟨g, p⟩, hg⟩ := decodeGap_ok gd L hH pos
      obtain ⟨gs, hgs, hlen⟩ := ih p
      refine ⟨g :: gs, ?_, by rw [List.length_cons]; omega⟩
      rw [decodeGaps, if_pos hp, hg]
      simp only [hgs]
    · refine ⟨[], ?_, Nat.zero_le _⟩
      rw [decodeGaps, if_neg hp]

theorem valuesOf_length (gs : List Nat) : (valuesOf gs).length = gs.length := by
  cases gs with
  | nil => rfl
  | cons g rest => rw [valuesOf_cons, List.length_cons, sumsFrom_length, List.length_cons]

theorem decode_ok (gd : GolombDelta) (L : List Bool) (hH : Holds gd.encoded L) (n : Nat) :
    ∃ out, gd.decode n = .ok out ∧ out.length ≤ n := by
  obtain ⟨gs, hgs, hlen⟩ := decodeGaps_ok gd L hH n 0
  refine ⟨valuesOf gs, ?_, by rw [valuesOf_length]; exact hlen⟩
  unfold GolombDelta.decode
  rw [hgs]

theorem accessLoop_ok (gd : GolombDelta) (L : List Bool) (hH : Holds gd.encoded L) :
    ∀ k pos c v, ∃ r, accessLoop gd k pos c v = .ok r := by
  intro k
  induction k with
  | zero => intro pos c v; exact ⟨v, rfl⟩
  | succ k ih =>
    intro pos c v
    by_cases hp : pos < gd.encoded.size
    · obtain ⟨⟨g, p⟩, hg⟩ := decodeGap_ok gd L hH pos
      obtain ⟨r, hr⟩ := ih p (c + 1) (if c = 0 then sub64 g 1 else add64 v g)
      refine ⟨r, ?_⟩
      rw [accessLoop, if_pos hp, hg]
      exact hr
    · refine ⟨v, ?_⟩
      rw [accessLoop, if_neg hp]

theorem encode_holds (values : List Nat) :
    ∃ L, Holds (GolombDelta.encode values).encoded L := by
  unfold GolombDelta.encode
  by_cases h : values.isEmpty = true
  · rw [if_pos h]
    exact ⟨[], holds_empty⟩
  · rw [if_neg h]
    simp only [foldl_encodeGap]
    exact ⟨_, holds_pushAll_empty _⟩

theorem selectScan_fail (word block : Nat) : ∀ k j off, j + k = 64 →
    Nat.count (fun q => wordBit word (j + q) = true) k ≤ off →
    BitVector.selectScan word block k j off = .error .assertion := by
  intro k
  induction k with
  | zero => intro j off _ _; rfl
  | succ k ih =>
    intro j off h1 h2
    have hj : j < 64 := by omega
    rw [Nat.count_succ'] at h2
    have hshift : Nat.count (fun q => wordBit word (j + (q + 1)) = true) k =
        Nat.count (fun q => wordBit word (j + 1 + q) = true) k := by
      apply count_congr_lt
      intro q _
      rw [show j + (q + 1) = j + 1 + q by omega]
    rw [hshift] at h2
    simp only [Nat.add_zero] at h2
    simp only [BitVector.selectScan, shr64_and_one word j hj]
    cases hb : wordBit word j with
    | true =>
      simp only [hb, if_true] at h2
      have hne : off ≠ 0 := by omega
      simp only [hne, if_false, if_true]
      exact ih (j + 1) (off - 1) (by omega) (by omega)
    | false =>
      simp only [hb, Bool.false_eq_true, if_false] at h2
      simp only [Bool.false_eq_true, if_false]
      exact ih (j + 1) off (by omega) (by omega)

/-- Select past the last set bit: on a vector with at least one word whose
rank table was built from its words, `select(i)` ends in the assertion when
`i` is at least the number of set bits. -/
theorem select_fail (bv : BitVector) (hrt : bv.rank_table = BitVector.rankLoop bv.data 0)
    (hne : 0 < bv.data.length) (i : Nat) (hi64 : i < 2 ^ 64)
    (hi : onesBefore bv.data (64 * bv.data.length) ≤ i) :
    bv.select i = .error .assertion := by
  have hlen : bv.rank_table.length = bv.data.length := by rw [hrt, rankLoop_length]
  have hget : ∀ k, k < bv.data.length →
      bv.rank_table.getD k 0 = onesBefore bv.data (64 * k) := by
    intro k hk
    rw [hrt, rankLoop_getD _ _ _ hk, Nat.zero_add]
  have hsearch : BitVector.selectSearch bv.rank_table i
      bv.rank_table.length 0 bv.rank_table.length = bv.data.length := by
    apply selectSearch_eq _ _ _ _ _ _ _ (by omega) (by omega) (le_refl _) (by omega)
    intro k hk
    rw [hget k (by omega)]
    constructor
    · intro _; omega
    · intro _
      exact le_trans (onesBefore_mono _ (by omega)) hi
  obtain ⟨b, hb⟩ : ∃ b, bv.data.length = b + 1 := ⟨bv.data.length - 1, by omega⟩
  unfold BitVector.select
  simp only [hsearch]
  rw [if_neg (by omega), hb, Nat.add_sub_cancel]
  have h1 : bv.rank_table[b]? = some (onesBefore bv.data (64 * b)) := by
    have := hget b (by omega)
    rw [List.getD_eq_getElem?_getD, List.getElem?_eq_getElem (by omega)] at this
    rw [List.getElem?_eq_getElem (by omega)]
    simpa using this
  have h2 : bv.data[b]? = some (bv.data.getD b 0) := by
    rw [List.getD_eq_getElem?_getD, List.getElem?_eq_getElem (by omega)]
    simp
  simp only [h1, h2]
  have hsucc := onesBefore_succ_block bv.data b
  rw [← hb] at hsucc
  rw [popcountll_eq] at hsucc
  rw [sub64_of_le _ _ (by omega), Nat.mod_eq_of_lt (by omega)]
  apply selectScan_fail _ _ 64 0 _ (by omega)
  simp only [Nat.zero_add]
  omega

theorem select_empty_fail (bv : BitVector) (hrt : bv.rank_table = BitVector.rankLoop bv.data 0)
    (hne : bv.data.length = 0) (i : Nat) : bv.select i = .error .outOfBounds := by
  have hd : bv.data = [] := List.length_eq_zero.mp hne
  have hr : bv.rank_table = [] := by rw [hrt, hd]; rfl
  unfold BitVector.select
  rw [hr]
  rfl

theorem onesBefore_total_of_holds (bv : BitVector) (bs : List Bool) (h : Holds bv bs) :
    onesBefore bv.data (64 * bv.data.length) = bs.count true := by
  rw [onesBefore_of_holds bv bs h, List.take_of_length_le (by have := h.2.1; omega)]

theorem ceil_div_eq (a b : Nat) (hb : 0 < b) : ⌈(a : ℚ) / (b : ℚ)⌉₊ = (a + b - 1) / b := by
  have hbq : (0 : ℚ) < (b : ℚ) := by exact_mod_cast hb
  apply le_antisymm
  · rw [Nat.ceil_le, div_le_iff₀ hbq]
    have h1 : a ≤ (a + b - 1) / b * b := by
      have := Nat.div_add_mod (a + b - 1) b
      have := Nat.mod_lt (a + b - 1) hb
      have hc : b * ((a + b - 1) / b) = (a + b - 1) / b * b := Nat.mul_comm _ _
      omega
    exact_mod_cast h1
  · rcases Nat.eq_zero_or_pos ((a + b - 1) / b) with h0 | hpos
    · rw [h0]; exact Nat.zero_le _
    · have hlt : (a + b - 1) / b - 1 < ⌈(a : ℚ) / (b : ℚ)⌉₊ := by
        rw [Nat.lt_ceil, lt_div_iff₀ hbq]
        have h1 : ((a + b - 1) / b - 1) * b < a := by
          have := Nat.div_mul_le_self (a + b - 1) b
          have h2 : ((a + b - 1) / b - 1) * b = (a + b - 1) / b * b - b := by
            rw [Nat.sub_mul, Nat.one_mul]
          have h3 : b ≤ (a + b - 1) / b * b := Nat.le_mul_of_pos_left b hpos
          omega
        exact_mod_cast h1
      omega

theorem specGaps_length (vs : List Nat) : (specGaps vs).length = vs.length := by
  cases vs with
  | nil => rfl
  | cons v vs =>
    simp only [specGaps, List.length_cons]
    congr 1
    induction vs generalizing v with
    | nil => rfl
    | cons x xs ih => simp only [specDiffs, List.length_cons, ih]

theorem gapsFrom_eq_specDiffs (vs : List Nat) : ∀ v, (v :: vs).Pairwise (· ≤ ·) →
    (∀ x, x ∈ vs → x < 2 ^ 64) → gapsFrom v vs = specDiffs v vs := by
  induction vs with
  | nil => intro v _ _; rfl
  | cons x xs ih =>
    intro v hs hb
    have hvx : v ≤ x := List.rel_of_pairwise_cons hs (List.mem_cons_self _ _)
    have hx : x < 2 ^ 64 := hb x (List.mem_cons_self _ _)
    have h1 : sub64 x v = x - v := by
      rw [sub64_of_le _ _ hvx]
      exact Nat.mod_eq_of_lt (by omega)
    simp only [gapsFrom, specDiffs, h1]
    rw [ih x (List.Pairwise.of_cons hs) (fun y hy => hb y (List.mem_cons_of_mem _ hy))]

theorem gapsOf_eq_specGaps (vs : List Nat) (hs : vs.Pairwise (· ≤ ·))
    (hb : ∀ x, x ∈ vs → x < 2 ^ 64 - 1) : gapsOf vs = specGaps vs := by
  cases vs with
  | nil => rfl
  | cons v vs =>
    have hv := hb v (List.mem_cons_self _ _)
    have h1 : add64 v 1 = v + 1 := by
      unfold add64
      exact Nat.mod_eq_of_lt (by omega)
    simp only [gapsOf, specGaps, h1]
    rw [gapsFrom_eq_specDiffs vs v hs (fun x hx => by
      have := hb x (List.mem_cons_of_mem _ hx); omega)]

theorem sum_specDiffs (vs : List Nat) : ∀ v, (v :: vs).Pairwise (· ≤ ·) →
    v + (specDiffs v vs).sum = (v :: vs).getLast?.getD 0 := by
  induction vs with
  | nil => intro v _; rfl
  | cons x xs ih =>
    intro v hs
    have hvx : v ≤ x := List.rel_of_pairwise_cons hs (List.mem_cons_self _ _)
    have := ih x (List.Pairwise.of_cons hs)
    simp only [specDiffs, List.sum_cons, List.getLast?_cons_cons]
    omega

theorem sum_specGaps (vs : List Nat) (hs : vs.Pairwise (· ≤ ·)) (hne : vs ≠ []) :
    (specGaps vs).sum = vs.getLast?.getD 0 + 1 := by
  cases vs with
  | nil => exact absurd rfl hne
  | cons v vs =>
    have := sum_specDiffs vs v hs
    simp only [specGaps, List.sum_cons]
    omega

theorem specM_eq (vs : List Nat) (hne : vs ≠ []) :
    specM vs = max 1 (((specGaps vs).sum + vs.length - 1) / vs.length) := by
  unfold specM
  rw [specGaps_length, ceil_div_eq _ _ (List.length_pos.mpr hne)]

theorem compute_M_pos (gaps : List Nat) : 1 ≤ compute_M gaps := by
  unfold compute_M
  simp only
  split
  · exact le_refl _
  · exact le_max_left _ _

theorem encode_M_pos (vs : List Nat) : 1 ≤ (GolombDelta.encode vs).M := by
  unfold GolombDelta.encode
  split
  · exact le_refl _
  · exact compute_M_pos _

theorem encode_M (vs : List Nat) (hne : vs ≠ []) :
    (GolombDelta.encode vs).M = compute_M (gapsOf vs) := by
  have hempty : vs.isEmpty = false := by
    cases vs with
    | nil => exact absurd rfl hne
    | cons a b => rfl
  unfold GolombDelta.encode
  rw [if_neg (by rw [hempty]; exact Bool.false_ne_true)]

theorem select_fail_of_holds (bv : BitVector) (bs : List Bool) (h : Holds bv bs)
    (hne : 0 < bs.length) (i : Nat) (hi64 : i < 2 ^ 64) (hi : bs.count true ≤ i) :
    bv.build_rank_metadata.select i = .error .assertion := by
  have hH := holds_build bv bs h
  have hlen : 0 < bv.build_rank_metadata.data.length := by
    have := hH.2.1
    omega
  exact select_fail bv.build_rank_metadata rfl hlen i hi64
    (by rw [onesBefore_total_of_holds _ bs hH]; exact hi)

theorem select_error_of_holds (bv : BitVector) (bs : List Bool) (h : Holds bv bs)
    (i : Nat) (hi64 : i < 2 ^ 64) (hi : bs.count true ≤ i) :
    ∃ e, bv.build_rank_metadata.select i = .error e := by
  by_cases hne : 0 < bs.length
  · exact ⟨_, select_fail_of_holds bv bs h hne i hi64 hi⟩
  · have hH := holds_build bv bs h
    have hlen : bv.build_rank_metadata.data.length = 0 := by
      have := hH.2.1
      omega
    exact ⟨_, select_empty_fail bv.build_rank_metadata rfl hlen i⟩

theorem count_true_replicate_false (n : Nat) : (List.replicate n false).count true = 0 := by
  induction n with
  | zero => rfl
  | succ n ih => rw [List.replicate_succ, List.count_cons_of_ne (by decide), ih]

theorem golomb_decode_nil (k : Nat) : (GolombDelta.encode []).decode k = .ok [] := by
  cases k with
  | zero => rfl
  | succ k => rfl

theorem getLast_lt_of_forall (values : List Nat) (b : Nat) (hb0 : 0 < b)
    (hb : ∀ x, x ∈ values → x < b) : values.getLast?.getD 0 < b := by
  by_cases hne : values = []
  · subst hne; exact hb0
  · rw [List.getLast?_eq_getLast _ hne]
    exact hb _ (List.getLast_mem hne)

theorem toDouble_small (u : Nat) (h : u < 2 ^ 53) : EliasFano.toDouble u = u := by
  unfold EliasFano.toDouble
  rw [if_pos h]

theorem log2Slack_le (k : Nat) : EliasFano.log2Slack k ≤ 44 := by
  unfold EliasFano.log2Slack
  repeat' split
  all_goals omega

theorem shr64_le (x l : Nat) : shr64 x l ≤ x := by
  unfold shr64
  rw [Nat.shiftRight_eq_div_pow]
  exact Nat.div_le_self _ _

theorem add64_of_lt (a b : Nat) (h : a + b < 2 ^ 64) : add64 a b = a + b := by
  unfold add64
  exact Nat.mod_eq_of_lt h

/-- Below `2 ^ 46` the double evaluation of `floor(log2(u / double(n)))` gives
the exact value. -/
theorem doubleWidth_eq_lowBitWidth (u n : Nat) (hu : u < 2 ^ 46) :
    EliasFano.doubleWidth u n = EliasFano.lowBitWidth u n := by
  unfold EliasFano.doubleWidth EliasFano.lowBitWidth
  by_cases hc : 0 < n ∧ 0 < u / n
  · rw [if_pos hc, if_pos hc]
    obtain ⟨hn0, hdiv⟩ := hc
    have hnu : n ≤ u := by
      by_contra hlt
      rw [Nat.div_eq_of_lt (by omega)] at hdiv
      exact Nat.lt_irrefl 0 hdiv
    rw [toDouble_small u (by omega), toDouble_small n (by omega)]
    have hE := (Nat.findGreatest_eq_iff (P := fun k => 2 ^ k * n ≤ u)
      (k := 64) (m := Nat.findGreatest (fun k => 2 ^ k * n ≤ u) 64)).mp rfl
    unfold EliasFano.quotientLog2
    simp only
    generalize Nat.findGreatest (fun k => 2 ^ k * n ≤ u) 64 = E at hE ⊢
    obtain ⟨hE64, hP, hnot⟩ := hE
    have hPE : 2 ^ E * n ≤ u := by
      by_cases h0 : E = 0
      · subst h0
        simpa using hnu
      · exact hP h0
    have hElt : E < 46 := by
      by_contra hge
      have h1 : 2 ^ 46 ≤ 2 ^ E := Nat.pow_le_pow_right (by norm_num) (by omega)
      have h2 : 2 ^ E * 1 ≤ 2 ^ E * n := Nat.mul_le_mul_left _ hn0
      omega
    have hS : u < 2 ^ (E + 1) * n := by
      have := hnot (n := E + 1) (by omega) (by omega)
      simpa using this
    have hS2 : u < 2 * (2 ^ E * n) := by
      have h2 : 2 ^ (E + 1) * n = 2 * (2 ^ E * n) := by
        rw [Nat.pow_succ]
        ring
      omega
    rw [Nat.mul_comm n (2 ^ E)]
    generalize 2 ^ E * n = X at hPE hS2 ⊢
    have hX : 0 < X := by
      rcases Nat.eq_zero_or_pos X with h | h
      · subst h
        omega
      · exact h
    have hm0 : u * 2 ^ 52 / X < 2 ^ 53 - 64 := by
      rw [Nat.div_lt_iff_lt_mul hX]
      norm_num
      omega
    have hsl := log2Slack_le (E + 1)
    generalize u * 2 ^ 52 / X = m0 at hm0 ⊢
    generalize EliasFano.log2Slack (E + 1) = s at hsl ⊢
    rw [if_neg]
    split_ifs <;> omega
  · rw [if_neg hc, if_neg hc]

/-- On values below `2 ^ 46` the two embeddings of the constructor agree. -/
theorem construct_eq_encode (values : List Nat) (hb : ∀ x, x ∈ values → x < 2 ^ 46)
    (hlen : values.length < 2 ^ 63) :
    EliasFano.construct values = EliasFano.encode values := by
  have hu : values.getLast?.getD 0 < 2 ^ 46 := getLast_lt_of_forall values _ (by norm_num) hb
  have hle := shr64_le (values.getLast?.getD 0)
    (EliasFano.lowBitWidth (values.getLast?.getD 0) values.length)
  have h1 := add64_of_lt (shr64 (values.getLast?.getD 0)
    (EliasFano.lowBitWidth (values.getLast?.getD 0) values.length)) values.length (by omega)
  have h2 := add64_of_lt (shr64 (values.getLast?.getD 0)
    (EliasFano.lowBitWidth (values.getLast?.getD 0) values.length) + values.length) 63 (by omega)
  simp only [EliasFano.construct, EliasFano.encode, doubleWidth_eq_lowBitWidth _ _ hu, h1, h2]

/-! ## The claims -/

/-- C1 (code defect): the Elias-Fano round trip fails on the sorted one-element
input `[2^40 + 2^35]`.  The constructor chooses `lower_bits = 40` and stores the
low 40 bits in a `uint32_t`, which drops bit 35; `decode()` returns `[2^40]`. -/
theorem C1_low_bits_truncated :
    (∃ ef, EliasFano.encode [1133871366144] = .ok ef ∧ ef.lower_bits = 40 ∧ ef.lower = [0]) ∧
      EliasFano.roundTrip [1133871366144] = .ok [1099511627776] :=
  ⟨⟨_, rfl, rfl, rfl⟩, rfl⟩

/-- C2 (code defect): the Golomb-delta round trip fails on the sorted input
`[0, 1]`.  The parameter is `M = 1`, the encoder writes no remainder bits, the
decoder reads one, and `decode(2)` returns `[2^64 - 1, 2^64 - 1]`. -/
theorem C2_golomb_M_one_misdecoded :
    (GolombDelta.encode [0, 1]).M = 1 ∧
      (GolombDelta.encode [0, 1]).decode 2 =
        .ok [18446744073709551615, 18446744073709551615] :=
  ⟨rfl, rfl⟩

/-- C3: for every non-decreasing sequence of values below `2^32`,
`EliasFano(seq).decode()` returns exactly `seq`; and the input `[5]` encodes
with `n = 1`, `u = 5`, `lower_bits = 2` and decodes to `[5]`. -/
theorem C3_eliasfano_roundtrip (seq : List Nat) (hs : seq.Pairwise (· ≤ ·))
    (hb : ∀ x, x ∈ seq → x < 2 ^ 32) :
    EliasFano.roundTrip seq = .ok seq ∧
      ∃ ef, EliasFano.encode [5] = .ok ef ∧ ef.n = 1 ∧ ef.u = 5 ∧ ef.lower_bits = 2 ∧
        ef.decode = .ok [5] := by
  refine ⟨?_, ⟨_, rfl, rfl, rfl, rfl, rfl⟩⟩
  obtain ⟨ef, h1, _, h3, h4, _⟩ := decode_sorted seq hs
  have hu : seq.getLast?.getD 0 < 2 ^ 32 := by
    by_cases hne : seq = []
    · subst hne; simp
    · rw [List.getLast?_eq_getLast _ hne]
      exact hb _ (List.getLast_mem hne)
  have hl : ef.lower_bits < 64 := by
    rw [h3]
    have := lowBitWidth_lt (seq.getLast?.getD 0) seq.length 32 hu (by norm_num)
    omega
  unfold EliasFano.roundTrip
  rw [h1]
  simp only
  rw [h4]
  congr 1
  conv_rhs => rw [← List.map_id seq]
  apply List.map_congr_left
  intro x hx
  exact rebuilt_eq _ x hl (hb x hx)

theorem C3_eliasfano_roundtrip_witness :
    [1, 5, 5, 100, 1000, 1001, 70000].Pairwise (· ≤ ·) ∧
      (∀ x, x ∈ [1, 5, 5, 100, 1000, 1001, 70000] → x < 2 ^ 32) ∧
      EliasFano.roundTrip [1, 5, 5, 100, 1000, 1001, 70000] =
        .ok [1, 5, 5, 100, 1000, 1001, 70000] :=
  ⟨by decide, by decide,
    (C3_eliasfano_roundtrip [1, 5, 5, 100, 1000, 1001, 70000] (by decide) (by decide)).1⟩

/-- C4: for every non-empty non-decreasing sequence of `n` values below `2^32`
whose largest value is at least `n`, and every `numValues ≥ n`,
`GolombDelta(seq).decode(numValues)` returns exactly `seq`. -/
theorem C4_golomb_roundtrip (seq : List Nat) (hne : seq ≠ []) (hs : seq.Pairwise (· ≤ ·))
    (hb : ∀ x, x ∈ seq → x < 2 ^ 32) (hlarge : ∃ x, x ∈ seq ∧ seq.length ≤ x)
    (numValues : Nat) (hn : seq.length ≤ numValues) :
    (GolombDelta.encode seq).decode numValues = .ok seq := by
  obtain ⟨x, hx, hle⟩ := hlarge
  exact golomb_roundtrip seq hne hs hb (le_trans hle (mem_le_getLast seq hs x hx)) numValues hn

theorem C4_golomb_roundtrip_witness :
    [3, 5, 9, 20] ≠ [] ∧ [3, 5, 9, 20].Pairwise (· ≤ ·) ∧
      (∀ x, x ∈ [3, 5, 9, 20] → x < 2 ^ 32) ∧
      (∃ x, x ∈ [3, 5, 9, 20] ∧ [3, 5, 9, 20].length ≤ x) ∧
      (GolombDelta.encode [3, 5, 9, 20]).decode 4 = .ok [3, 5, 9, 20] :=
  ⟨by decide, by decide, by decide, ⟨20, by decide, by decide⟩,
    C4_golomb_roundtrip [3, 5, 9, 20] (by decide) (by decide) (by decide)
      ⟨20, by decide, by decide⟩ 4 (by decide)⟩

/-- C5 (code defect): `rank(pos)` does not count the set bits in `[0, pos)`.
After `push_back(true)` and `build_rank_metadata()`, `rank(1)` returns 0 while
one set bit lies before position 1: the mask keeps the bits from `pos` up to
the last bit of the word instead of the bits before `pos`. -/
theorem C5_rank_counts_wrong_side :
    ((BitVector.empty.pushAll [true]).build_rank_metadata).rank 1 = .ok 0 ∧
      ([true].take 1).count true = 1 :=
  ⟨rfl, rfl⟩

/-- C6: on a bit vector whose rank metadata was built after its last append,
for every `i` below the number of set bits, `select(i)` returns a position `p`
inside the vector whose bit is set and which has exactly `i` set bits before
it. -/
theorem C6_select_ith_set_bit (calls : List BitVector.Call) (i : Nat)
    (hi : i < (BitVector.pushedBits calls).count true) :
    ∃ p, (BitVector.runCalls calls).build_rank_metadata.select i = .ok p ∧
      p < (BitVector.runCalls calls).build_rank_metadata.size ∧
      (BitVector.runCalls calls).build_rank_metadata.get p = .ok true ∧
      ((BitVector.pushedBits calls).take p).count true = i := by
  have hH := holds_runCalls calls
  obtain ⟨p, h1, h2, h3⟩ := exists_nth_true (BitVector.pushedBits calls) i hi
  refine ⟨p, ?_, ?_, ?_, h3⟩
  · have := select_of_holds _ _ hH p h1 h2
    rw [h3] at this
    exact this
  · have := (holds_build _ _ hH).1
    unfold BitVector.size
    omega
  · rw [get_of_holds _ _ (holds_build _ _ hH) p h1, h2]

theorem C6_select_ith_set_bit_witness :
    1 < (BitVector.pushedBits [.push false, .push true, .build, .push true]).count true ∧
      ∃ p, (BitVector.runCalls
          [.push false, .push true, .build, .push true]).build_rank_metadata.select 1 = .ok p ∧
        p < (BitVector.runCalls
          [.push false, .push true, .build, .push true]).build_rank_metadata.size ∧
        (BitVector.runCalls
          [.push false, .push true, .build, .push true]).build_rank_metadata.get p = .ok true ∧
        ((BitVector.pushedBits [.push false, .push true, .build, .push true]).take p).count true
          = 1 :=
  ⟨by decide, C6_select_ith_set_bit [.push false, .push true, .build, .push true] 1 (by decide)⟩

/-- C7 (code defect): `rank(select(i)) == i` fails.  On the bits `0 1` with
built metadata, `select(0)` returns 1 and `rank(1)` returns 1, not 0. -/
theorem C7_rank_after_select_fails :
    ((BitVector.empty.pushAll [false, true]).build_rank_metadata).select 0 = .ok 1 ∧
      ((BitVector.empty.pushAll [false, true]).build_rank_metadata).rank 1 = .ok 1 :=
  ⟨rfl, rfl⟩

/-- C8 (code defect): `select(rank(p)) == p` fails.  On the bits `1 1 1` with
built metadata, `get(1)` is true, `rank(1)` returns 2 and `select(2)` returns
2, not 1. -/
theorem C8_select_after_rank_fails :
    ((BitVector.empty.pushAll [true, true, true]).build_rank_metadata).get 1 = .ok true ∧
      ((BitVector.empty.pushAll [true, true, true]).build_rank_metadata).rank 1 = .ok 2 ∧
      ((BitVector.empty.pushAll [true, true, true]).build_rank_metadata).select 2 = .ok 2 :=
  ⟨rfl, rfl, rfl⟩

/-- C9 (code defect): Golomb-delta access consistency fails on the sorted
input `[0, 0, 0, 0]` at index 2.  With `M = 1` the decoder consumes the stream
early: `decode(4)` returns only `[0, 0]`, which has no element 2, while
`access(2)` returns 0. -/
theorem C9_golomb_decode_too_short :
    (GolombDelta.encode [0, 0, 0, 0]).M = 1 ∧
      (GolombDelta.encode [0, 0, 0, 0]).decode 4 = .ok [0, 0] ∧
      ([0, 0] : List Nat)[2]? = none ∧
      (GolombDelta.encode [0, 0, 0, 0]).access 2 = .ok 0 :=
  ⟨rfl, rfl, rfl, rfl⟩

/-- C11 (counterexample): on the four values `[3, 5, 9, 20]` the out-of-range
call `access(4)` does not fail; it returns 20, the last value. -/
theorem C11_access_past_end_returns :
    [3, 5, 9, 20].length ≤ 4 ∧ (GolombDelta.encode [3, 5, 9, 20]).access 4 = .ok 20 :=
  ⟨by decide, rfl⟩

/-- C11 (amended): `GolombDelta::access` has no range check.  For every input
sequence and every index, also an index at or past the number of encoded
values, `access(index)` returns a value and raises no error. -/
theorem C11_access_never_fails (seq : List Nat) (index : Nat) :
    ∃ v, (GolombDelta.encode seq).access index = .ok v := by
  obtain ⟨L, hL⟩ := encode_holds seq
  exact accessLoop_ok _ L hL (index + 1) 0 0 0

/-- C12: on a bit vector with built rank metadata, `select(i)` fails for every
`i` at or past the number of set bits: it ends in an error, which is the
assertion whenever the vector holds at least one bit; in particular every
`select(i)` on 640 unset bits ends in the assertion. -/
theorem C12_select_out_of_range (calls : List BitVector.Call) (i : Nat) (hi64 : i < 2 ^ 64)
    (hi : (BitVector.pushedBits calls).count true ≤ i) :
    (∃ e, (BitVector.runCalls calls).build_rank_metadata.select i = .error e) ∧
      (0 < (BitVector.runCalls calls).build_rank_metadata.size →
        (BitVector.runCalls calls).build_rank_metadata.select i = .error .assertion) ∧
      ∀ j, j < 2 ^ 64 →
        (BitVector.empty.pushAll (List.replicate 640 false)).build_rank_metadata.select j =
          .error .assertion := by
  have hH := holds_runCalls calls
  refine ⟨select_error_of_holds _ _ hH i hi64 hi, ?_, ?_⟩
  · intro hpos
    have hsz : (BitVector.runCalls calls).build_rank_metadata.size =
        (BitVector.pushedBits calls).length := hH.1
    exact select_fail_of_holds _ _ hH (by omega) i hi64 hi
  · intro j hj
    exact select_fail_of_holds _ _ (holds_pushAll_empty (List.replicate 640 false))
      (by rw [List.length_replicate]; norm_num) j hj
      (by rw [count_true_replicate_false]; exact Nat.zero_le _)

theorem C12_select_out_of_range_witness :
    1 < 2 ^ 64 ∧
      (BitVector.pushedBits [.push false, .push true, .build]).count true ≤ 1 ∧
      (BitVector.runCalls [.push false, .push true, .build]).build_rank_metadata.select 1 =
        .error .assertion :=
  ⟨by norm_num, by decide,
    (C12_select_out_of_range [.push false, .push true, .build] 1 (by norm_num)
      (by decide)).2.1 (by decide)⟩

/-- C13: for every bit content of the encoded stream, every `M` and every
`numValues`, `decode(numValues)` runs without a fault: no `get` is called at or
past `encoded.size()`, and at most `numValues` values are returned. -/
theorem C13_decode_stays_in_bounds (M : Nat) (bits : List Bool) (numValues : Nat) :
    ∃ out, GolombDelta.decode ⟨M, BitVector.empty.pushAll bits⟩ numValues = .ok out ∧
      out.length ≤ numValues :=
  decode_ok ⟨M, BitVector.empty.pushAll bits⟩ bits (holds_pushAll_empty bits) numValues

/-- C14: encoding the empty sequence gives `size_in_bits() == 0` and an empty
decode result, for both codecs. -/
theorem C14_empty_input :
    (∃ ef, EliasFano.encode [] = .ok ef ∧ ef.size_in_bits = 0 ∧ ef.decode = .ok []) ∧
      (GolombDelta.encode []).size_in_bits = 0 ∧
      ∀ k, (GolombDelta.encode []).decode k = .ok [] :=
  ⟨⟨_, rfl, rfl, rfl⟩, rfl, golomb_decode_nil⟩

/-- C16 (counterexample): on the sorted input `[0, 2^64 - 1]` the gaps are
`[1, 2^64 - 1]`, their 64-bit sum wraps to 0 and the code takes `M = 1`, while
`max(1, ceil(mean(gaps)))` is `2^63`. -/
theorem C16_modulus_sum_wraps :
    ([0, 18446744073709551615] : List Nat).Pairwise (· ≤ ·) ∧
      GolombDelta.gapsOf [0, 18446744073709551615] = [1, 18446744073709551615] ∧
      (GolombDelta.encode [0, 18446744073709551615]).M = 1 ∧
      GolombDelta.specM [0, 18446744073709551615] = 9223372036854775808 := by
  refine ⟨by decide, rfl, rfl, ?_⟩
  rw [specM_eq _ (by decide)]
  rfl

/-- C16 (amended): for every non-empty non-decreasing input whose values are
below `2^53 - 1`, the code's gaps are `value[0] + 1` and the differences
`value[i] - value[i - 1]`, and `M` equals `max(1, ceil(mean(gaps)))`; `M ≥ 1`
holds for every input, the empty one included; on `[3, 5, 9, 20]` the gaps are
`[4, 2, 4, 11]` and `M` is 6. -/
theorem C16_golomb_modulus (values : List Nat) (hne : values ≠ [])
    (hs : values.Pairwise (· ≤ ·)) (hb : ∀ x, x ∈ values → x < 2 ^ 53 - 1) :
    GolombDelta.gapsOf values = GolombDelta.specGaps values ∧
      (GolombDelta.encode values).M = GolombDelta.specM values ∧
      (∀ vs, 1 ≤ (GolombDelta.encode vs).M) ∧
      GolombDelta.gapsOf [3, 5, 9, 20] = [4, 2, 4, 11] ∧
      (GolombDelta.encode [3, 5, 9, 20]).M = 6 := by
  have hb64 : ∀ x, x ∈ values → x < 2 ^ 64 - 1 := fun x hx => by
    have := hb x hx; omega
  refine ⟨gapsOf_eq_specGaps values hs hb64, ?_, encode_M_pos, rfl, rfl⟩
  rw [encode_M values hne, compute_M_gapsOf values hne hs hb64, specM_eq values hne,
    sum_specGaps values hs hne]

theorem C16_golomb_modulus_witness :
    [3, 5, 9, 20] ≠ [] ∧ ([3, 5, 9, 20] : List Nat).Pairwise (· ≤ ·) ∧
      (∀ x, x ∈ [3, 5, 9, 20] → x < 2 ^ 53 - 1) ∧
      (GolombDelta.encode [3, 5, 9, 20]).M = GolombDelta.specM [3, 5, 9, 20] :=
  ⟨by decide, by decide, by decide,
    (C16_golomb_modulus [3, 5, 9, 20] (by decide) (by decide) (by decide)).2.1⟩

/-- C17: the input `[5, 3]` is not sorted, the constructor raises no error on
it, and `decode()` returns `[4, 4]`, which differs from the input. -/
theorem C17_unsorted_input_corrupts :
    ¬ ([5, 3] : List Nat).Pairwise (· ≤ ·) ∧
      ∃ ef, EliasFano.encode [5, 3] = .ok ef ∧ ef.decode = .ok [4, 4] ∧
        ([4, 4] : List Nat) ≠ [5, 3] :=
  ⟨by decide, _, rfl, rfl, by decide⟩

/-- C19: after pushing a list of bits in order onto an empty `BitVector`,
`size()` is the length of the list and `get(i)` returns the `i`-th pushed bit
for every `i < size()`. -/
theorem C19_push_get (bits : List Bool) (i : Nat) (hi : i < bits.length) :
    (BitVector.empty.pushAll bits).size = bits.length ∧
      (BitVector.empty.pushAll bits).get i = .ok bits[i] := by
  have hH := holds_pushAll_empty bits
  refine ⟨hH.1, ?_⟩
  rw [get_of_holds _ _ hH i hi, List.getD_eq_getElem?_getD, List.getElem?_eq_getElem hi]
  rfl

theorem C19_push_get_witness :
    2 < [true, false, true, true].length ∧
      (BitVector.empty.pushAll [true, false, true, true]).size =
        [true, false, true, true].length ∧
      (BitVector.empty.pushAll [true, false, true, true]).get 2 = .ok true :=
  ⟨by decide, C19_push_get [true, false, true, true] 2 (by decide)⟩

/-- X1: on every `GolombDelta` object, wherever `decode(n)` succeeds and has an
element `i`, `access(i)` returns that element: the loop of `access` is a copy
of the loop of `decode`. -/
theorem X1_golomb_access_agrees_with_decode (gd : GolombDelta) (n i : Nat) (out : List Nat)
    (h : gd.decode n = .ok out) (hi : i < out.length) :
    ∃ v, out[i]? = some v ∧ gd.access i = .ok v := by
  obtain ⟨gs, hgs, rfl⟩ := decode_inv gd n out h
  cases gs with
  | nil => exact absurd hi (by simp only [GolombDelta.valuesOf, List.length_nil]; omega)
  | cons g rest =>
    obtain ⟨m, p, _, hlt, hgap, hrest⟩ := decodeGaps_cons_inv gd n 0 g rest
      hgs
    rw [valuesOf_cons] at hi ⊢
    cases i with
    | zero =>
      refine ⟨sub64 g 1, List.getElem?_cons_zero, ?_⟩
      unfold GolombDelta.access
      rw [GolombDelta.accessLoop, if_pos hlt, hgap]
      simp only
      rw [GolombDelta.accessLoop, if_pos trivial]
    | succ i =>
      have hlen : i < rest.length := by
        rw [List.length_cons, sumsFrom_length] at hi
        omega
      have := accessLoop_sumsFrom gd i m p rest 1 (sub64 g 1) hrest hlen (by omega)
      refine ⟨(GolombDelta.sumsFrom (sub64 g 1) rest).getD i 0, ?_, ?_⟩
      · rw [List.getElem?_cons_succ]
        exact this.1
      · unfold GolombDelta.access
        rw [GolombDelta.accessLoop, if_pos hlt, hgap]
        simp only
        rw [if_pos trivial]
        exact this.2

theorem X1_golomb_access_agrees_with_decode_witness :
    (GolombDelta.encode [3, 5, 9, 20]).decode 4 = .ok [3, 5, 9, 20] ∧
      2 < [3, 5, 9, 20].length ∧
      ∃ v, ([3, 5, 9, 20] : List Nat)[2]? = some v ∧
        (GolombDelta.encode [3, 5, 9, 20]).access 2 = .ok v :=
  ⟨rfl, by decide,
    X1_golomb_access_agrees_with_decode (GolombDelta.encode [3, 5, 9, 20]) 4 2 [3, 5, 9, 20]
      rfl (by decide)⟩

